import Mathlib

/-!
# Verification of the Basedash connection-URI parser

Shallow embedding of the connection-URI parsing component of
`src/index.ts`: the anchored regular expression `connectionUriRegex`,
dialect classification (`extractDialectFromUri`), credential extraction
(`extractCredentialsFromUri`), percent-decoding with fallback
(`safeDecodeURIComponent`), and the query-parameter handling performed
through `URLSearchParams`.

Strings are modelled as `List Char` of Unicode scalar values, with
`String`-level wrappers for the top-level entry points.  The regular
expression is embedded as a backtracking matcher in continuation-passing
style that reproduces the JavaScript engine's strategy: alternatives are
tried left to right, greedy quantifiers consume the longest run first and
back off one character at a time, and the first overall success wins.
-/

namespace UriParser

/-! ## Character classes of the regular expression

`\w` in a JavaScript regular expression (without the `u` flag's property
escapes) is exactly `[A-Za-z0-9_]`, and `\d` is `[0-9]`. -/

/-- `\w`: ASCII word character. -/
def isWordChar (c : Char) : Bool :=
  ('a' ≤ c && c ≤ 'z') || ('A' ≤ c && c ≤ 'Z') || ('0' ≤ c && c ≤ '9') || c = '_'

/-- Character class of the `dialect` group: `[\w:]`. -/
def isDialectChar (c : Char) : Bool :=
  isWordChar c || c = ':'

/-- Character class of the `username` group: `[^:@]`. -/
def isUserChar (c : Char) : Bool :=
  c ≠ ':' && c ≠ '@'

/-- Character class of the second `host` alternative: `[^:/]`. -/
def isHostChar (c : Char) : Bool :=
  c ≠ ':' && c ≠ '/'

/-- Character class of the `database` group: `[\w.-]`. -/
def isDbChar (c : Char) : Bool :=
  isWordChar c || c = '.' || c = '-'

/-- Characters matched by `.` in a JavaScript regex without the `s` flag:
everything except the four line terminators. -/
def isDotChar (c : Char) : Bool :=
  c ≠ '\n' && c ≠ '\r' && c ≠ '\u2028' && c ≠ '\u2029'

/-! ## Backtracking combinators

Continuation-passing matchers over `List Char`.  `Option.orElse` encodes
the ordered choice of the backtracking engine. -/

/-- Match a literal sequence of characters, then continue. -/
def lit (l : List Char) (cs : List Char) (k : List Char → Option α) : Option α :=
  match l, cs with
  | [], cs => k cs
  | c :: l', d :: cs' => if c = d then lit l' cs' k else none
  | _ :: _, [] => none

/-- Greedy `*` backtracking loop: `revPre` is the (reversed) portion still
claimed by the quantifier; the continuation is tried with the longest
claim first, giving one character back at a time. -/
def goStar (k : List Char → List Char → Option α) :
    List Char → List Char → Option α
  | [], rest => k [] rest
  | c :: revPre', rest =>
    match k ((c :: revPre').reverse) rest with
    | some v => some v
    | none => goStar k revPre' (c :: rest)

/-- Greedy `+` backtracking loop: as `goStar`, but the quantifier never
gives back its last character (the match must be nonempty). -/
def goPlus (k : List Char → List Char → Option α) :
    List Char → List Char → Option α
  | revPre, rest =>
    match revPre with
    | [] => none
    | c :: revPre' =>
      match k (c :: revPre').reverse rest with
      | some v => some v
      | none => goPlus k revPre' (c :: rest)

/-- Greedy `[class]*`: the continuation receives the consumed run and the
remaining input, longest run first. -/
def starCls (p : Char → Bool) (cs : List Char)
    (k : List Char → List Char → Option α) : Option α :=
  goStar k (cs.takeWhile p).reverse (cs.dropWhile p)

/-- Greedy `[class]+`. -/
def plusCls (p : Char → Bool) (cs : List Char)
    (k : List Char → List Char → Option α) : Option α :=
  goPlus k (cs.takeWhile p).reverse (cs.dropWhile p)

/-! ## The connection-URI grammar

```
^(?<dialect>[\w:]+)://
 (?:(?<username>[^:@]*)(?::(?<password>[^@]*))?@)?
 (?<host>(?:\[[^\]]+\]|[^:/]+))
 (?::(?<port>\d+))?
 (?:/(?<database>[\w.-]*))?
 (?:\?(?<params>[^#]*)?)?
 (?:#.*)?$
```
-/

/-- Named capture groups of `connectionUriRegex`.  `none` models a group
that did not participate in the match (`undefined` in JavaScript). -/
structure UriGroups where
  dialect : List Char
  username : Option (List Char)
  password : Option (List Char)
  host : List Char
  port : Option (List Char)
  database : Option (List Char)
  params : Option (List Char)
deriving DecidableEq, Repr

/-- `(?::(?<password>[^@]*))?` — optional password part of the userinfo. -/
def optPassThen (cs : List Char)
    (k : Option (List Char) → List Char → Option α) : Option α :=
  (lit [':'] cs fun r => starCls (fun c => c ≠ '@') r fun pw r2 => k (some pw) r2)
    <|> k none cs

/-- `(?:(?<username>[^:@]*)(?::(?<password>[^@]*))?@)?` — optional userinfo. -/
def optUser (cs : List Char)
    (k : Option (List Char) → Option (List Char) → List Char → Option α) : Option α :=
  (starCls isUserChar cs fun u r1 =>
    optPassThen r1 fun pw r2 =>
      lit ['@'] r2 fun r3 => k (some u) pw r3)
    <|> k none none cs

/-- `(?<host>(?:\[[^\]]+\]|[^:/]+))` — bracketed literal tried first, then a
plain run of `[^:/]`. -/
def hostAlt (cs : List Char) (k : List Char → List Char → Option α) : Option α :=
  (lit ['['] cs fun r =>
    plusCls (fun c => c ≠ ']') r fun inner r2 =>
      lit [']'] r2 fun r3 => k ('[' :: (inner ++ [']'])) r3)
    <|> plusCls isHostChar cs fun h r => k h r

/-- `(?::(?<port>\d+))?` — optional port. -/
def optPort (cs : List Char)
    (k : Option (List Char) → List Char → Option α) : Option α :=
  (lit [':'] cs fun r => plusCls Char.isDigit r fun d r2 => k (some d) r2)
    <|> k none cs

/-- `(?:/(?<database>[\w.-]*))?` — optional database path segment. -/
def optDb (cs : List Char)
    (k : Option (List Char) → List Char → Option α) : Option α :=
  (lit ['/'] cs fun r => starCls isDbChar r fun d r2 => k (some d) r2)
    <|> k none cs

/-- `(?:\?(?<params>[^#]*)?)?` — optional query-parameter section; the inner
group may itself be skipped while the `?` is consumed. -/
def optParams (cs : List Char)
    (k : Option (List Char) → List Char → Option α) : Option α :=
  (lit ['?'] cs fun r =>
    (starCls (fun c => c ≠ '#') r fun q r2 => k (some q) r2) <|> k none r)
    <|> k none cs

/-- `(?:#.*)?` — optional fragment, discarded. -/
def optFrag (cs : List Char) (k : List Char → Option α) : Option α :=
  (lit ['#'] cs fun r => starCls isDotChar r fun _ r2 => k r2)
    <|> k cs

/-- The full anchored match of `connectionUriRegex` against an input,
returning the capture groups of the first (leftmost-greedy) success. -/
def matchUriL (cs : List Char) : Option UriGroups :=
  plusCls isDialectChar cs fun dial r1 =>
    lit (':' :: '/' :: '/' :: []) r1 fun r2 =>
      optUser r2 fun u pw r3 =>
        hostAlt r3 fun h r4 =>
          optPort r4 fun port r5 =>
            optDb r5 fun db r6 =>
              optParams r6 fun ps r7 =>
                optFrag r7 fun r8 =>
                  if r8.isEmpty then
                    some ⟨dial, u, pw, h, port, db, ps⟩
                  else none

/-- `value.match(connectionUriRegex)` at the `String` level. -/
def connectionUriMatch (value : String) : Option UriGroups :=
  matchUriL value.data

/-! ## ASCII case mapping

`toUpperCase`/`toLowerCase` restricted to the ASCII range.  Every string
the implementation case-converts before comparing is compared against a
pure-ASCII constant (dialect tokens are `[\w:]`, the SSL-mode and
provider-detection constants are ASCII letters), and no non-ASCII
character has a simple case mapping landing on the letters of those
constants, so the ASCII mapping is extensionally faithful here. -/

/-- `s.toUpperCase()`. -/
def toUpperL (l : List Char) : List Char := l.map Char.toUpper

/-- `s.toLowerCase()`. -/
def toLowerL (l : List Char) : List Char := l.map Char.toLower

/-- Contiguous-subsequence test: does `needle` occur inside `hay`? -/
def containsSeq (hay needle : List Char) : Bool :=
  needle.isPrefixOf hay ||
    match hay with
    | [] => false
    | _ :: t => containsSeq t needle

/-- `value.toLowerCase().includes(needle)` for a lowercase `needle`. -/
def containsLower (value needle : List Char) : Bool :=
  containsSeq (toLowerL value) needle

/-! ## `decodeURIComponent`

The ECMAScript algorithm: each `%hh` escape contributes a byte; a byte
with the high bit set must begin a complete, shortest-form UTF-8 sequence
written as consecutive escapes, or the call throws `URIError` (modelled
as `none`). -/

/-- Value of a hexadecimal digit character. -/
def hexVal (c : Char) : Option Nat :=
  if 48 ≤ c.toNat ∧ c.toNat ≤ 57 then some (c.toNat - 48)
  else if 65 ≤ c.toNat ∧ c.toNat ≤ 70 then some (c.toNat - 55)
  else if 97 ≤ c.toNat ∧ c.toNat ≤ 102 then some (c.toNat - 87)
  else none

/-- Lex a URI string into literal characters and `%hh` escape bytes;
fails on a malformed escape. -/
def uriTokens : List Char → Option (List (Nat ⊕ Char))
  | [] => some []
  | c :: rest =>
    if c = '%' then
      match rest with
      | h1 :: h2 :: rest2 =>
        match hexVal h1, hexVal h2 with
        | some a, some b => (uriTokens rest2).map (fun ts => Sum.inl (16 * a + b) :: ts)
        | _, _ => none
      | _ => none
    else (uriTokens rest).map (fun ts => Sum.inr c :: ts)

/-- Is `b` a UTF-8 continuation byte? -/
def isCont (b : Nat) : Bool := 128 ≤ b && b ≤ 191

/-- Decode the token stream: literal characters pass through, escape bytes
are decoded as strict UTF-8 (shortest form, no surrogates, at most
U+10FFFF), one code point at a time. -/
def decodeTokens : List (Nat ⊕ Char) → Option (List Char)
  | [] => some []
  | Sum.inr c :: ts => (decodeTokens ts).map (fun l => c :: l)
  | Sum.inl b :: ts =>
    if b < 128 then
      (decodeTokens ts).map (fun l => Char.ofNat b :: l)
    else if 194 ≤ b ∧ b ≤ 223 then
      match ts with
      | Sum.inl b2 :: ts' =>
        if isCont b2 then
          (decodeTokens ts').map (fun l => Char.ofNat ((b - 192) * 64 + (b2 - 128)) :: l)
        else none
      | _ => none
    else if 224 ≤ b ∧ b ≤ 239 then
      match ts with
      | Sum.inl b2 :: Sum.inl b3 :: ts' =>
        let cp := (b - 224) * 4096 + (b2 - 128) * 64 + (b3 - 128)
        if isCont b2 && isCont b3 && decide (2048 ≤ cp) &&
            !(decide (55296 ≤ cp) && decide (cp ≤ 57343)) then
          (decodeTokens ts').map (fun l => Char.ofNat cp :: l)
        else none
      | _ => none
    else if 240 ≤ b ∧ b ≤ 244 then
      match ts with
      | Sum.inl b2 :: Sum.inl b3 :: Sum.inl b4 :: ts' =>
        let cp := (b - 240) * 262144 + (b2 - 128) * 4096 + (b3 - 128) * 64 + (b4 - 128)
        if isCont b2 && isCont b3 && isCont b4 && decide (65536 ≤ cp) &&
            decide (cp ≤ 1114111) then
          (decodeTokens ts').map (fun l => Char.ofNat cp :: l)
        else none
      | _ => none
    else none

/-- `decodeURIComponent`, `none` standing for a thrown `URIError`. -/
def decodeURIComponentOpt (cs : List Char) : Option (List Char) :=
  (uriTokens cs).bind decodeTokens

/-- `safeDecodeURIComponent`: decode, falling back to the raw string when
decoding throws. -/
def safeDecodeURIComponentL (cs : List Char) : List Char :=
  match decodeURIComponentOpt cs with
  | some t => t
  | none => cs

/-- `safeDecodeURIComponent` at the `String` level. -/
def safeDecodeURIComponent (str : String) : String :=
  ⟨safeDecodeURIComponentL str.data⟩

/-! ## `URLSearchParams`

The WHATWG `application/x-www-form-urlencoded` parser: strip one leading
`?`, split on `&`, split each nonempty piece at its first `=`, replace
`+` by space, percent-decode byte-wise (malformed escapes stay literal),
and interpret the bytes as UTF-8 with U+FFFD replacement on error.  The
constructor never throws on a string argument. -/

/-- UTF-8 encoding of one scalar value. -/
def utf8EncodeChar (c : Char) : List Nat :=
  let n := c.toNat
  if n < 128 then [n]
  else if n < 2048 then [192 + n / 64, 128 + n % 64]
  else if n < 65536 then [224 + n / 4096, 128 + (n / 64) % 64, 128 + n % 64]
  else [240 + n / 262144, 128 + (n / 4096) % 64, 128 + (n / 64) % 64, 128 + n % 64]

/-- UTF-8 encoding of a character list. -/
def utf8Encode (l : List Char) : List Nat :=
  (l.map utf8EncodeChar).flatten

/-- Value of a hexadecimal digit given as a byte. -/
def hexValByte (b : Nat) : Option Nat :=
  if 48 ≤ b ∧ b ≤ 57 then some (b - 48)
  else if 65 ≤ b ∧ b ≤ 70 then some (b - 55)
  else if 97 ≤ b ∧ b ≤ 102 then some (b - 87)
  else none

/-- Byte-wise percent-decoding: `0x25 hh` becomes a byte when `hh` is hex,
anything else passes through unchanged. -/
def percentDecodeBytes : List Nat → List Nat
  | [] => []
  | 37 :: h1 :: h2 :: rest =>
    match hexValByte h1, hexValByte h2 with
    | some a, some b => (16 * a + b) :: percentDecodeBytes rest
    | _, _ => 37 :: percentDecodeBytes (h1 :: h2 :: rest)
  | b :: rest => b :: percentDecodeBytes rest

/-- Permitted range of the second byte of a UTF-8 sequence, by lead byte. -/
def contLo (lead : Nat) : Nat := if lead = 224 then 160 else if lead = 240 then 144 else 128
/-- Permitted upper bound of the second byte of a UTF-8 sequence. -/
def contHi (lead : Nat) : Nat := if lead = 237 then 159 else if lead = 244 then 143 else 191

/-- UTF-8 decoding with U+FFFD replacement on error (WHATWG decoder).
Structural recursion on a fuel argument; every step consumes at least one
byte, so `fuel = length` (as supplied by `utf8DecodeReplace`) never runs
out. -/
def utf8DecodeReplaceAux : Nat → List Nat → List Char
  | _, [] => []
  | 0, _ => []
  | fuel + 1, b :: bs =>
    if b < 128 then Char.ofNat b :: utf8DecodeReplaceAux fuel bs
    else if 194 ≤ b ∧ b ≤ 223 then
      match bs with
      | b2 :: bs' =>
        if isCont b2 then
          Char.ofNat ((b - 192) * 64 + (b2 - 128)) :: utf8DecodeReplaceAux fuel bs'
        else '�' :: utf8DecodeReplaceAux fuel (b2 :: bs')
      | [] => ['�']
    else if 224 ≤ b ∧ b ≤ 239 then
      match bs with
      | b2 :: bs' =>
        if contLo b ≤ b2 ∧ b2 ≤ contHi b then
          match bs' with
          | b3 :: bs'' =>
            if isCont b3 then
              Char.ofNat ((b - 224) * 4096 + (b2 - 128) * 64 + (b3 - 128)) ::
                utf8DecodeReplaceAux fuel bs''
            else '�' :: utf8DecodeReplaceAux fuel (b3 :: bs'')
          | [] => ['�']
        else '�' :: utf8DecodeReplaceAux fuel (b2 :: bs')
      | [] => ['�']
    else if 240 ≤ b ∧ b ≤ 244 then
      match bs with
      | b2 :: bs' =>
        if contLo b ≤ b2 ∧ b2 ≤ contHi b then
          match bs' with
          | b3 :: bs'' =>
            if isCont b3 then
              match bs'' with
              | b4 :: bs''' =>
                if isCont b4 then
                  Char.ofNat ((b - 240) * 262144 + (b2 - 128) * 4096 +
                    (b3 - 128) * 64 + (b4 - 128)) :: utf8DecodeReplaceAux fuel bs'''
                else '�' :: utf8DecodeReplaceAux fuel (b4 :: bs''')
              | [] => ['�']
            else '�' :: utf8DecodeReplaceAux fuel (b3 :: bs'')
          | [] => ['�']
        else '�' :: utf8DecodeReplaceAux fuel (b2 :: bs')
      | [] => ['�']
    else '�' :: utf8DecodeReplaceAux fuel bs

/-- UTF-8 decoding with U+FFFD replacement on error. -/
def utf8DecodeReplace (l : List Nat) : List Char :=
  utf8DecodeReplaceAux l.length l

/-- Decode one form-urlencoded name or value. -/
def formDecode (piece : List Char) : List Char :=
  utf8DecodeReplace
    (percentDecodeBytes ((utf8Encode piece).map (fun b => if b = 43 then 32 else b)))

/-- Split a list at every occurrence of `sep`, keeping empty pieces. -/
def splitOnChar (sep : Char) : List Char → List (List Char)
  | [] => [[]]
  | c :: rest =>
    match splitOnChar sep rest with
    | [] => if c = sep then [[], []] else [[c]]
    | h :: t => if c = sep then [] :: h :: t else (c :: h) :: t

/-- `new URLSearchParams(init)`: the decoded name/value pairs in order. -/
def urlSearchParams (init : List Char) : List (List Char × List Char) :=
  let s := match init with
    | '?' :: r => r
    | _ => init
  (splitOnChar '&' s).filterMap fun piece =>
    match piece with
    | [] => none
    | _ =>
      let k := piece.takeWhile (fun c => c ≠ '=')
      let v := (piece.dropWhile (fun c => c ≠ '=')).tail
      some (formDecode k, formDecode v)

/-- `params.get(name)`: first value for the name, or `null`. -/
def paramsGet (ps : List (List Char × List Char)) (name : List Char) :
    Option (List Char) :=
  (ps.find? (fun p => decide (p.1 = name))).map (fun p => p.2)

/-! ## Dialect classification -/

/-- The `DatabaseDialect` union type. -/
inductive DatabaseDialect where
  | POSTGRES
  | SUPABASE
  | MYSQL
  | PLANETSCALE
  | CLICKHOUSE
  | SQL_SERVER
deriving DecidableEq, Repr

/-- `extractDialectFromUri` over a character list: match the grammar, then
switch on the upper-cased dialect token, with the Supabase and
PlanetScale provider checks on the whole input. -/
def extractDialectFromUriL (value : List Char) : Option DatabaseDialect :=
  match matchUriL value with
  | none => none
  | some g =>
    let dialect := toUpperL g.dialect
    if dialect = "POSTGRES".data ∨ dialect = "POSTGRESQL".data then
      if containsLower value "supabase".data then some .SUPABASE
      else some .POSTGRES
    else if dialect = "MYSQL".data then
      if containsLower value "planetscale".data || containsLower value "pscale".data ||
          containsLower value "psdb".data then some .PLANETSCALE
      else some .MYSQL
    else if dialect = "JDBC:CLICKHOUSE".data ∨ dialect = "CLICKHOUSE".data then
      some .CLICKHOUSE
    else if dialect = "SQLSERVER".data ∨ dialect = "MSSQL".data ∨
        dialect = "SQL_SERVER".data then
      some .SQL_SERVER
    else none

/-- `extractDialectFromUri` at the `String` level. -/
def extractDialectFromUri (value : String) : Option DatabaseDialect :=
  extractDialectFromUriL value.data

/-! ## Credential extraction -/

/-- The `ParsedCredentials` record. -/
structure ParsedCredentials where
  username : List Char
  password : List Char
  host : List Char
  port : Option Nat
  databaseName : List Char
  sslEnabled : Bool
deriving DecidableEq, Repr

/-- `parseInt(port, 10)` on a nonempty digit string, modelled as an exact
natural number.  This is faithful to the program for values below `2^53`,
where an IEEE double represents the integer exactly and its decimal
rendering is positional; theorems whose truth depends on the port's
round-trip through `parseInt` carry that bound explicitly. -/
def digitsToNat (l : List Char) : Nat :=
  l.foldl (fun n c => n * 10 + (c.toNat - 48)) 0

/-- The Supabase placeholder password. -/
def placeholderPassword : List Char := "[YOUR-PASSWORD]".data

/-- The credential record `extractCredentialsFromUri` builds from the
capture groups of a successful match, following the source line by line:
default missing groups to the empty string, decode username and password
(empty strings are falsy and skipped), normalize the placeholder
password, parse the port, read the database-name fallback and the SSL
mode from the query parameters (skipped when `paramsRaw` is empty), and
decode the selected database name last.  `new URLSearchParams(string)`
never throws, so the source's `try`/`catch` around it has no failing
branch to model. -/
def paramsPart (databaseName0 paramsRaw : List Char) : List Char × Bool :=
  if paramsRaw = [] then (databaseName0, true)
  else
    let ps := urlSearchParams paramsRaw
    let databaseName1 :=
      if databaseName0 = [] then
        match paramsGet ps "database".data with
        | some v => if v = [] then databaseName0 else v
        | none => databaseName0
      else databaseName0
    let sslMode := (paramsGet ps "sslmode".data).orElse fun _ =>
      (paramsGet ps "ssl-mode".data).orElse fun _ => paramsGet ps "ssl".data
    let sslEnabled :=
      match sslMode with
      | some m =>
        if m = [] then true
        else
          let normalizedMode := toLowerL m
          decide (normalizedMode ≠ "disable".data) &&
            decide (normalizedMode ≠ "false".data)
      | none => true
    (databaseName1, sslEnabled)

def credOfGroups (g : UriGroups) : ParsedCredentials :=
    let rawUsername := g.username.getD []
    let rawPassword := g.password.getD []
    let host := g.host
    let port := g.port.getD []
    let databaseName0 := g.database.getD []
    let paramsRaw := g.params.getD []
    let username := if rawUsername = [] then [] else safeDecodeURIComponentL rawUsername
    let password0 := if rawPassword = [] then [] else safeDecodeURIComponentL rawPassword
    let password := if password0 = placeholderPassword then [] else password0
    let portNumber : Option Nat := if port = [] then none else some (digitsToNat port)
    let st := paramsPart databaseName0 paramsRaw
    let databaseName := if st.1 = [] then [] else safeDecodeURIComponentL st.1
    ⟨username, password, host, portNumber, databaseName, st.2⟩

/-- `extractCredentialsFromUri` over a character list: fail when the
grammar does not match, otherwise build the record from the groups. -/
def extractCredentialsFromUriL (value : List Char) : Option ParsedCredentials :=
  match matchUriL value with
  | none => none
  | some g => some (credOfGroups g)

/-- `extractCredentialsFromUri` at the `String` level. -/
def extractCredentialsFromUri (value : String) : Option ParsedCredentials :=
  extractCredentialsFromUriL value.data

/-! ## Specification-side definitions

Definitions transcribed from the specification's wording, to be compared
against the implementation model above. -/

/-- The dialect mapping table as the specification words it: the dialect
token compared case-insensitively (via lower-casing) against the listed
lowercase tokens, with the provider-substring replacements applied to the
full input. -/
def specDialectMap (token value : List Char) : Option DatabaseDialect :=
  let t := toLowerL token
  if t = "postgres".data ∨ t = "postgresql".data then
    if containsLower value "supabase".data then some .SUPABASE else some .POSTGRES
  else if t = "mysql".data then
    if containsLower value "planetscale".data || containsLower value "pscale".data ||
        containsLower value "psdb".data then some .PLANETSCALE
    else some .MYSQL
  else if t = "clickhouse".data ∨ t = "jdbc:clickhouse".data then some .CLICKHOUSE
  else if t = "sqlserver".data ∨ t = "mssql".data ∨ t = "sql_server".data then
    some .SQL_SERVER
  else none

/-- SSL-mode resolution as the specification words it: inspect the query
parameters in priority order `sslmode`, `ssl-mode`, `ssl`; SSL is disabled
exactly when the first present key's lower-cased value is `disable` or
`false`. -/
def sslResolutionSpec (paramsRaw : List Char) : Bool :=
  let ps := urlSearchParams paramsRaw
  match (paramsGet ps "sslmode".data).orElse fun _ =>
      (paramsGet ps "ssl-mode".data).orElse fun _ => paramsGet ps "ssl".data with
  | none => true
  | some v =>
    if toLowerL v = "disable".data ∨ toLowerL v = "false".data then false else true

/-- Database-name selection as the specification words it: the path
segment when a nonempty one is present, otherwise the value of a
`database` query parameter, otherwise empty; the caller decodes the
selected value afterwards. -/
def dbSelectSpec (g : UriGroups) : List Char :=
  if g.database.getD [] ≠ [] then g.database.getD []
  else
    match paramsGet (urlSearchParams (g.params.getD [])) "database".data with
    | some v => v
    | none => []

/-- The optional `?params` tail of a constructed connection string. -/
def paramsTail : Option (List Char) → List Char
  | none => []
  | some q => '?' :: q

/-- A connection string assembled from its components:
`t://u:p@h:port/d` followed by `?q` when `q` is present. -/
def builtUri (t u p h port d : List Char) (q : Option (List Char)) : List Char :=
  t ++ ':' :: '/' :: '/' ::
    (u ++ ':' :: (p ++ '@' :: (h ++ ':' :: (port ++ '/' :: (d ++ paramsTail q)))))

/-- Name of a dialect, as serialized into a reconstructed URI. -/
def dialectName : DatabaseDialect → List Char
  | .POSTGRES => "POSTGRES".data
  | .SUPABASE => "SUPABASE".data
  | .MYSQL => "MYSQL".data
  | .PLANETSCALE => "PLANETSCALE".data
  | .CLICKHOUSE => "CLICKHOUSE".data
  | .SQL_SERVER => "SQL_SERVER".data

/-- Decimal rendering of a port number. -/
def portDigitsAux : Nat → Nat → List Char
  | 0, _ => []
  | fuel + 1, n =>
    if n = 0 then []
    else portDigitsAux fuel (n / 10) ++ [Char.ofNat (48 + n % 10)]

/-- Decimal rendering of a positive number, most significant digit first;
the fuel argument of `portDigitsAux` bounds the number of digits. -/
def portDigits (n : Nat) : List Char :=
  if n = 0 then ['0'] else portDigitsAux n n

/-- Canonical SSL query parameter reconstructing a credential record's
`sslEnabled` field. -/
def sslParams (b : Bool) : List Char :=
  if b then "sslmode=require".data else "sslmode=disable".data

/-- The canonical reconstruction of a parsed result's fields described by
the round-trip property: `dialect "://" username ":" password "@" host
":" port "/" database "?" ssl params`. -/
def canonicalReconstruction (dl : DatabaseDialect) (c : ParsedCredentials) : List Char :=
  builtUri (dialectName dl) c.username c.password c.host
    (match c.port with
      | some n => portDigits n
      | none => []) c.databaseName (some (sslParams c.sslEnabled))

/-- The host shapes whose reconstruction re-parses to the same host
capture.  A host not starting with `[` must be a run of the plain host
class `[^:/]`.  A host starting with `[` re-parses correctly when the
bracket alternative either succeeds on exactly the whole host (a
bracketed literal `[inner]` with nonempty `]`-free `inner`) or fails and
falls back to the plain alternative: the latter happens when the host has
no `]` at all, when `[` is immediately followed by `]`, or when the text
after the first `]` starts with a character that aborts the remaining
optional stages (anything but `?` and `#`; `:` and `/` are already
excluded by the plain class).  A `?` or `#` right after the first `]`
instead lets the match succeed with the shorter bracketed host, changing
the capture. -/
def hostOk (h : List Char) : Bool :=
  if h.head? = some '[' then
    if h.tail.dropWhile (fun ch => ch ≠ ']') = [] ∨
        h.tail.takeWhile (fun ch => ch ≠ ']') = [] then
      h.all isHostChar
    else if (h.tail.dropWhile (fun ch => ch ≠ ']')).tail = [] then true
    else
      decide ((h.tail.dropWhile (fun ch => ch ≠ ']')).tail.head? ≠ some '?') &&
      decide ((h.tail.dropWhile (fun ch => ch ≠ ']')).tail.head? ≠ some '#') &&
      h.all isHostChar
  else !h.isEmpty && h.all isHostChar

/-! ## Run lemmas for `takeWhile`/`dropWhile` -/

theorem takeWhile_all_eq {p : Char → Bool} {xs : List Char} (h : xs.all p = true) :
    xs.takeWhile p = xs := by
  induction xs with
  | nil => rfl
  | cons c cs ih =>
    simp only [List.all_cons, Bool.and_eq_true] at h
    simp [List.takeWhile_cons, h.1, ih h.2]

theorem dropWhile_all_eq {p : Char → Bool} {xs : List Char} (h : xs.all p = true) :
    xs.dropWhile p = [] := by
  induction xs with
  | nil => rfl
  | cons c cs ih =>
    simp only [List.all_cons, Bool.and_eq_true] at h
    simp [List.dropWhile_cons, h.1, ih h.2]

theorem takeWhile_append_stop {p : Char → Bool} {xs : List Char} {y : Char}
    (ys : List Char) (hall : xs.all p = true) (hy : p y = false) :
    (xs ++ y :: ys).takeWhile p = xs := by
  induction xs with
  | nil => simp [List.takeWhile_cons, hy]
  | cons c cs ih =>
    simp only [List.all_cons, Bool.and_eq_true] at hall
    simp [List.takeWhile_cons, hall.1, ih hall.2]

theorem dropWhile_append_stop {p : Char → Bool} {xs : List Char} {y : Char}
    (ys : List Char) (hall : xs.all p = true) (hy : p y = false) :
    (xs ++ y :: ys).dropWhile p = y :: ys := by
  induction xs with
  | nil => simp [List.dropWhile_cons, hy]
  | cons c cs ih =>
    simp only [List.all_cons, Bool.and_eq_true] at hall
    simp [List.dropWhile_cons, hall.1, ih hall.2]

/-! ## First-success lemmas for the combinators -/

theorem orElse_some_left {a b : Option α} {v : α} (h : a = some v) :
    (a <|> b) = some v := by
  subst h; rfl

theorem orElse_none_left {a b : Option α} (h : a = none) :
    (a <|> b) = b := by
  subst h; rfl

theorem lit_self_append (l rest : List Char) (k : List Char → Option α) :
    lit l (l ++ rest) k = k rest := by
  induction l with
  | nil => rfl
  | cons c l ih => simp [lit, ih]

theorem lit_head_ne {c d : Char} (h : c ≠ d) (l cs : List Char)
    (k : List Char → Option α) : lit (c :: l) (d :: cs) k = none := by
  simp [lit, h]

theorem lit_nil_right (c : Char) (l : List Char) (k : List Char → Option α) :
    lit (c :: l) [] k = none := rfl

theorem starCls_of_max {p : Char → Bool} {cs : List Char}
    {k : List Char → List Char → Option α} {v : α}
    (h : k (cs.takeWhile p) (cs.dropWhile p) = some v) :
    starCls p cs k = some v := by
  unfold starCls
  cases h' : (cs.takeWhile p).reverse with
  | nil =>
    have h0 : cs.takeWhile p = [] := List.reverse_eq_nil_iff.mp h'
    rw [h0] at h
    simpa only [goStar] using h
  | cons c r' =>
    have ht : (c :: r').reverse = cs.takeWhile p := by
      rw [← h', List.reverse_reverse]
    simp only [goStar, ht, h]

theorem plusCls_of_max {p : Char → Bool} {cs : List Char}
    {k : List Char → List Char → Option α} {v : α}
    (hne : cs.takeWhile p ≠ [])
    (h : k (cs.takeWhile p) (cs.dropWhile p) = some v) :
    plusCls p cs k = some v := by
  unfold plusCls
  cases h' : (cs.takeWhile p).reverse with
  | nil => exact absurd (List.reverse_eq_nil_iff.mp h') hne
  | cons c r' =>
    have ht : (c :: r').reverse = cs.takeWhile p := by
      rw [← h', List.reverse_reverse]
    simp only [goPlus, ht, h]

/-- The dialect quantifier `[\w:]+` claims the colon of `://` first, fails
the literal, and backs off one character to the intended token. -/
theorem plusDialect_step {t rest0 : List Char}
    {k : List Char → List Char → Option α} {v : α}
    (ht : t.all isDialectChar = true) (htne : t ≠ [])
    (hfail : k (t ++ [':']) ('/' :: '/' :: rest0) = none)
    (hk : k t (':' :: '/' :: '/' :: rest0) = some v) :
    plusCls isDialectChar (t ++ ':' :: '/' :: '/' :: rest0) k = some v := by
  have hta : (t ++ [':']).all isDialectChar = true := by
    simp only [List.all_append, Bool.and_eq_true]
    exact ⟨ht, by decide⟩
  have hshape : t ++ ':' :: '/' :: '/' :: rest0 = (t ++ [':']) ++ '/' :: ('/' :: rest0) := by
    simp
  have h1 : (t ++ ':' :: '/' :: '/' :: rest0).takeWhile isDialectChar = t ++ [':'] := by
    rw [hshape]; exact takeWhile_append_stop _ hta (by decide)
  have h2 : (t ++ ':' :: '/' :: '/' :: rest0).dropWhile isDialectChar = '/' :: '/' :: rest0 := by
    rw [hshape]; exact dropWhile_append_stop _ hta (by decide)
  unfold plusCls
  rw [h1, h2, List.reverse_append]
  have hrev : ([':'] : List Char).reverse ++ t.reverse = ':' :: t.reverse := by simp
  rw [hrev]
  cases h' : t.reverse with
  | nil => exact absurd (List.reverse_eq_nil_iff.mp h') htne
  | cons c r' =>
    have ht' : (c :: r').reverse = t := by rw [← h', List.reverse_reverse]
    have hr2 : (':' :: c :: r').reverse = t ++ [':'] := by
      rw [List.reverse_cons, ht']
    simp only [goPlus, hr2, hfail, ht', hk]

/-! ## Stage lemmas: the intended parse of a well-formed URI succeeds -/

theorem optUser_build {u p rest : List Char}
    {k : Option (List Char) → Option (List Char) → List Char → Option α} {v : α}
    (hu : u.all isUserChar = true) (hp : p.all (fun c => c ≠ '@') = true)
    (hk : k (some u) (some p) rest = some v) :
    optUser (u ++ ':' :: (p ++ '@' :: rest)) k = some v := by
  unfold optUser
  apply orElse_some_left
  apply starCls_of_max
  rw [takeWhile_append_stop _ hu (by decide), dropWhile_append_stop _ hu (by decide)]
  unfold optPassThen
  apply orElse_some_left
  rw [show (':' :: (p ++ '@' :: rest)) = [':'] ++ (p ++ '@' :: rest) from rfl,
    lit_self_append]
  apply starCls_of_max
  rw [takeWhile_append_stop _ hp (by decide), dropWhile_append_stop _ hp (by decide)]
  simp only []
  rw [show ('@' :: rest) = ['@'] ++ rest from rfl, lit_self_append]
  exact hk

theorem hostAlt_build_plain {h rest : List Char}
    {k : List Char → List Char → Option α} {v : α}
    (hh : h.all isHostChar = true) (hne : h ≠ []) (hhead : h.head? ≠ some '[')
    (h1 : (h ++ rest).takeWhile isHostChar = h)
    (h2 : (h ++ rest).dropWhile isHostChar = rest)
    (hk : k h rest = some v) :
    hostAlt (h ++ rest) k = some v := by
  unfold hostAlt
  cases h with
  | nil => exact absurd rfl hne
  | cons c h' =>
    have hc : ('[' : Char) ≠ c := by
      intro heq
      exact hhead (by simp [← heq])
    rw [show ((c :: h') ++ rest) = c :: (h' ++ rest) from rfl]
    rw [lit_head_ne hc]
    rw [orElse_none_left rfl]
    apply plusCls_of_max
    · rw [show (c :: (h' ++ rest)) = (c :: h') ++ rest from rfl, h1]
      exact hne
    · rw [show (c :: (h' ++ rest)) = (c :: h') ++ rest from rfl, h1, h2]
      exact hk

theorem hostAlt_build_bracket {inner rest : List Char}
    {k : List Char → List Char → Option α} {v : α}
    (hne : inner ≠ []) (hin : inner.all (fun c => c ≠ ']') = true)
    (hk : k ('[' :: (inner ++ [']'])) rest = some v) :
    hostAlt ('[' :: (inner ++ ']' :: rest)) k = some v := by
  unfold hostAlt
  apply orElse_some_left
  rw [show ('[' :: (inner ++ ']' :: rest)) = ['['] ++ (inner ++ ']' :: rest) from rfl,
    lit_self_append]
  apply plusCls_of_max
  · rw [takeWhile_append_stop _ hin (by decide)]
    exact hne
  · rw [takeWhile_append_stop _ hin (by decide), dropWhile_append_stop _ hin (by decide)]
    rw [show (']' :: rest) = [']'] ++ rest from rfl, lit_self_append]
    exact hk

theorem optPort_build {port rest : List Char}
    {k : Option (List Char) → List Char → Option α} {v : α}
    (_hall : port.all Char.isDigit = true) (hne : port ≠ [])
    (h1 : (port ++ rest).takeWhile Char.isDigit = port)
    (h2 : (port ++ rest).dropWhile Char.isDigit = rest)
    (hk : k (some port) rest = some v) :
    optPort (':' :: (port ++ rest)) k = some v := by
  unfold optPort
  apply orElse_some_left
  rw [show (':' :: (port ++ rest)) = [':'] ++ (port ++ rest) from rfl, lit_self_append]
  apply plusCls_of_max
  · rw [h1]; exact hne
  · rw [h1, h2]; exact hk

theorem optDb_build {d rest : List Char}
    {k : Option (List Char) → List Char → Option α} {v : α}
    (h1 : (d ++ rest).takeWhile isDbChar = d)
    (h2 : (d ++ rest).dropWhile isDbChar = rest)
    (hk : k (some d) rest = some v) :
    optDb ('/' :: (d ++ rest)) k = some v := by
  unfold optDb
  apply orElse_some_left
  rw [show ('/' :: (d ++ rest)) = ['/'] ++ (d ++ rest) from rfl, lit_self_append]
  apply starCls_of_max
  rw [h1, h2]
  exact hk

theorem optParams_build_none {k : Option (List Char) → List Char → Option α} {v : α}
    (hk : k none [] = some v) : optParams [] k = some v := by
  unfold optParams
  rw [lit_nil_right, orElse_none_left rfl]
  exact hk

theorem optParams_build_some {q : List Char}
    {k : Option (List Char) → List Char → Option α} {v : α}
    (hq : q.all (fun c => c ≠ '#') = true) (hk : k (some q) [] = some v) :
    optParams ('?' :: q) k = some v := by
  unfold optParams
  apply orElse_some_left
  rw [show ('?' :: q) = ['?'] ++ q from rfl, lit_self_append]
  apply orElse_some_left
  apply starCls_of_max
  rw [takeWhile_all_eq hq, dropWhile_all_eq hq]
  exact hk

theorem optFrag_build_nil {k : List Char → Option α} {v : α}
    (hk : k [] = some v) : optFrag [] k = some v := by
  unfold optFrag
  rw [lit_nil_right, orElse_none_left rfl]
  exact hk

/-! ## Master lemmas: the grammar match of a well-formed URI -/

/-- A well-formed `t://u:p@h:port/d[?q]` with a plain (unbracketed) host
matches the grammar with exactly the intended captures. -/
theorem matchUriL_builtUri (t u p h port d : List Char) (q : Option (List Char))
    (ht : t.all isDialectChar = true) (htne : t ≠ [])
    (hu : u.all isUserChar = true)
    (hp : p.all (fun c => c ≠ '@') = true)
    (hh : h.all isHostChar = true) (hhne : h ≠ []) (hhead : h.head? ≠ some '[')
    (hport : port.all Char.isDigit = true) (hpne : port ≠ [])
    (hd : d.all isDbChar = true)
    (hq : (q.getD []).all (fun c => c ≠ '#') = true) :
    matchUriL (builtUri t u p h port d q) =
      some ⟨t, some u, some p, h, some port, some d, q⟩ := by
  unfold matchUriL builtUri
  apply plusDialect_step ht htne
  · exact lit_head_ne (by decide) _ _ _
  · rw [show (':' :: '/' :: '/' ::
        (u ++ ':' :: (p ++ '@' :: (h ++ ':' :: (port ++ '/' :: (d ++ paramsTail q)))))) =
        (':' :: '/' :: '/' :: []) ++
        (u ++ ':' :: (p ++ '@' :: (h ++ ':' :: (port ++ '/' :: (d ++ paramsTail q)))))
        from rfl, lit_self_append]
    apply optUser_build hu hp
    apply hostAlt_build_plain hh hhne hhead
    · exact takeWhile_append_stop _ hh (by decide)
    · exact dropWhile_append_stop _ hh (by decide)
    apply optPort_build hport hpne
    · exact takeWhile_append_stop _ hport (by decide)
    · exact dropWhile_append_stop _ hport (by decide)
    cases q with
    | none =>
      rw [show paramsTail none = [] from rfl]
      apply optDb_build (by simpa using takeWhile_all_eq hd)
        (by simpa using dropWhile_all_eq hd)
      apply optParams_build_none
      apply optFrag_build_nil
      rfl
    | some qq =>
      rw [show paramsTail (some qq) = '?' :: qq from rfl]
      apply optDb_build (takeWhile_append_stop _ hd (by decide))
        (dropWhile_append_stop _ hd (by decide))
      apply optParams_build_some (by simpa using hq)
      apply optFrag_build_nil
      rfl

/-- A well-formed `t://u:p@[inner]:port/d` with a bracketed host matches
the grammar with the brackets kept in the host capture. -/
theorem matchUriL_builtUri_bracket (t u p inner port d : List Char)
    (ht : t.all isDialectChar = true) (htne : t ≠ [])
    (hu : u.all isUserChar = true)
    (hp : p.all (fun c => c ≠ '@') = true)
    (hin : inner.all (fun c => c ≠ ']') = true) (hinne : inner ≠ [])
    (hport : port.all Char.isDigit = true) (hpne : port ≠ [])
    (hd : d.all isDbChar = true) :
    matchUriL (builtUri t u p ('[' :: (inner ++ [']'])) port d none) =
      some ⟨t, some u, some p, '[' :: (inner ++ [']']), some port, some d, none⟩ := by
  unfold matchUriL builtUri
  apply plusDialect_step ht htne
  · exact lit_head_ne (by decide) _ _ _
  · rw [show (':' :: '/' :: '/' ::
        (u ++ ':' :: (p ++ '@' :: (('[' :: (inner ++ [']'])) ++ ':' ::
          (port ++ '/' :: (d ++ paramsTail none)))))) =
        (':' :: '/' :: '/' :: []) ++
        (u ++ ':' :: (p ++ '@' :: (('[' :: (inner ++ [']'])) ++ ':' ::
          (port ++ '/' :: (d ++ paramsTail none)))))
        from rfl, lit_self_append]
    apply optUser_build hu hp
    rw [show (('[' :: (inner ++ [']'])) ++ ':' :: (port ++ '/' :: (d ++ paramsTail none))) =
      '[' :: (inner ++ ']' :: (':' :: (port ++ '/' :: (d ++ paramsTail none)))) by simp]
    apply hostAlt_build_bracket hinne hin
    apply optPort_build hport hpne
    · exact takeWhile_append_stop _ hport (by decide)
    · exact dropWhile_append_stop _ hport (by decide)
    rw [show paramsTail none = [] from rfl]
    apply optDb_build (by simpa using takeWhile_all_eq hd)
      (by simpa using dropWhile_all_eq hd)
    apply optParams_build_none
    apply optFrag_build_nil
    rfl


/-! ## Inversion lemmas: what any successful match implies -/

theorem goStar_inv {k : List Char → List Char → Option α}
    {revPre rest : List Char} {v : α} (h : goStar k revPre rest = some v) :
    ∃ a b, a ++ b = revPre.reverse ++ rest ∧ (∀ x ∈ a, x ∈ revPre) ∧
      k a b = some v := by
  induction revPre generalizing rest with
  | nil =>
    refine ⟨[], rest, by simp, by simp, ?_⟩
    simpa [goStar] using h
  | cons c r' ih =>
    cases hk : k ((c :: r').reverse) rest with
    | some w =>
      have hs : goStar k (c :: r') rest = some w := by
        simp only [goStar]
        rw [hk]
      have hv : w = v := Option.some.inj (hs.symm.trans h)
      exact ⟨(c :: r').reverse, rest, rfl, fun x hx => List.mem_reverse.mp hx,
        by rw [hk, hv]⟩
    | none =>
      simp only [goStar, hk] at h
      obtain ⟨a, b, hab, hmem, hk'⟩ := ih h
      refine ⟨a, b, ?_, fun x hx => List.mem_cons_of_mem _ (hmem x hx), hk'⟩
      rw [hab]
      simp [List.reverse_cons, List.append_assoc]

theorem goPlus_inv {k : List Char → List Char → Option α}
    {revPre rest : List Char} {v : α} (h : goPlus k revPre rest = some v) :
    ∃ a b, a ≠ [] ∧ a ++ b = revPre.reverse ++ rest ∧ (∀ x ∈ a, x ∈ revPre) ∧
      k a b = some v := by
  induction revPre generalizing rest with
  | nil => simp [goPlus] at h
  | cons c r' ih =>
    cases hk : k ((c :: r').reverse) rest with
    | some w =>
      have hs : goPlus k (c :: r') rest = some w := by
        simp only [goPlus]
        rw [hk]
      have hv : w = v := Option.some.inj (hs.symm.trans h)
      exact ⟨(c :: r').reverse, rest, by simp, rfl, fun x hx => List.mem_reverse.mp hx,
        by rw [hk, hv]⟩
    | none =>
      simp only [goPlus, hk] at h
      obtain ⟨a, b, hane, hab, hmem, hk'⟩ := ih h
      refine ⟨a, b, hane, ?_, fun x hx => List.mem_cons_of_mem _ (hmem x hx), hk'⟩
      rw [hab]
      simp [List.reverse_cons, List.append_assoc]

theorem starCls_inv {p : Char → Bool} {cs : List Char}
    {k : List Char → List Char → Option α} {v : α}
    (h : starCls p cs k = some v) : ∃ a b, a ++ b = cs ∧ k a b = some v := by
  unfold starCls at h
  obtain ⟨a, b, hab, _, hk⟩ := goStar_inv h
  refine ⟨a, b, ?_, hk⟩
  rw [hab, List.reverse_reverse, List.takeWhile_append_dropWhile]

theorem plusCls_inv {p : Char → Bool} {cs : List Char}
    {k : List Char → List Char → Option α} {v : α}
    (h : plusCls p cs k = some v) :
    ∃ a b, a ≠ [] ∧ a.all p = true ∧ a ++ b = cs ∧ k a b = some v := by
  unfold plusCls at h
  obtain ⟨a, b, hane, hab, hmem, hk⟩ := goPlus_inv h
  refine ⟨a, b, hane, ?_, ?_, hk⟩
  · rw [List.all_eq_true]
    intro x hx
    have hx' := hmem x hx
    rw [List.mem_reverse] at hx'
    exact List.mem_takeWhile_imp hx'
  · rw [hab, List.reverse_reverse, List.takeWhile_append_dropWhile]

theorem lit_inv {l cs : List Char} {k : List Char → Option α} {v : α}
    (h : lit l cs k = some v) : ∃ rest, cs = l ++ rest ∧ k rest = some v := by
  induction l generalizing cs with
  | nil => exact ⟨cs, rfl, h⟩
  | cons c l ih =>
    cases cs with
    | nil => simp [lit] at h
    | cons e cs' =>
      simp only [lit] at h
      by_cases hcd : c = e
      · rw [if_pos hcd] at h
        obtain ⟨rest, hcs, hk⟩ := ih h
        exact ⟨rest, by rw [hcs, hcd]; rfl, hk⟩
      · rw [if_neg hcd] at h
        cases h

theorem orElse_inv {a b : Option α} {v : α} (h : (a <|> b) = some v) :
    a = some v ∨ (a = none ∧ b = some v) := by
  cases a with
  | some w => left; simpa using h
  | none => right; exact ⟨rfl, by simpa using h⟩

theorem optPassThen_inv {cs : List Char}
    {k : Option (List Char) → List Char → Option α} {v : α}
    (h : optPassThen cs k = some v) : ∃ pw r, k pw r = some v := by
  unfold optPassThen at h
  rcases orElse_inv h with h1 | ⟨_, h2⟩
  · obtain ⟨r1, _, h1'⟩ := lit_inv h1
    obtain ⟨a, b, _, hk⟩ := starCls_inv h1'
    exact ⟨some a, b, hk⟩
  · exact ⟨none, cs, h2⟩

theorem optUser_inv {cs : List Char}
    {k : Option (List Char) → Option (List Char) → List Char → Option α} {v : α}
    (h : optUser cs k = some v) : ∃ ou op r, k ou op r = some v := by
  unfold optUser at h
  rcases orElse_inv h with h1 | ⟨_, h2⟩
  · obtain ⟨a, b, _, h1'⟩ := starCls_inv h1
    obtain ⟨pw, r2, h1''⟩ := optPassThen_inv h1'
    obtain ⟨r3, _, hk⟩ := lit_inv h1''
    exact ⟨some a, pw, r3, hk⟩
  · exact ⟨none, none, cs, h2⟩

theorem hostAlt_inv {cs : List Char}
    {k : List Char → List Char → Option α} {v : α}
    (h : hostAlt cs k = some v) : ∃ hh r, hh ≠ [] ∧ k hh r = some v := by
  unfold hostAlt at h
  rcases orElse_inv h with h1 | ⟨_, h2⟩
  · obtain ⟨r1, _, h1'⟩ := lit_inv h1
    obtain ⟨inner, r2, _, _, _, h1''⟩ := plusCls_inv h1'
    obtain ⟨r3, _, hk⟩ := lit_inv h1''
    exact ⟨'[' :: (inner ++ [']']), r3, by simp, hk⟩
  · obtain ⟨a, b, hane, _, _, hk⟩ := plusCls_inv h2
    exact ⟨a, b, hane, hk⟩

theorem optPort_inv {cs : List Char}
    {k : Option (List Char) → List Char → Option α} {v : α}
    (h : optPort cs k = some v) : ∃ po r, k po r = some v := by
  unfold optPort at h
  rcases orElse_inv h with h1 | ⟨_, h2⟩
  · obtain ⟨r1, _, h1'⟩ := lit_inv h1
    obtain ⟨a, b, _, _, _, hk⟩ := plusCls_inv h1'
    exact ⟨some a, b, hk⟩
  · exact ⟨none, cs, h2⟩

theorem optDb_inv {cs : List Char}
    {k : Option (List Char) → List Char → Option α} {v : α}
    (h : optDb cs k = some v) : ∃ db r, k db r = some v := by
  unfold optDb at h
  rcases orElse_inv h with h1 | ⟨_, h2⟩
  · obtain ⟨r1, _, h1'⟩ := lit_inv h1
    obtain ⟨a, b, _, hk⟩ := starCls_inv h1'
    exact ⟨some a, b, hk⟩
  · exact ⟨none, cs, h2⟩

theorem optParams_inv {cs : List Char}
    {k : Option (List Char) → List Char → Option α} {v : α}
    (h : optParams cs k = some v) : ∃ ps r, k ps r = some v := by
  unfold optParams at h
  rcases orElse_inv h with h1 | ⟨_, h2⟩
  · obtain ⟨r1, _, h1'⟩ := lit_inv h1
    rcases orElse_inv h1' with h3 | ⟨_, h4⟩
    · obtain ⟨a, b, _, hk⟩ := starCls_inv h3
      exact ⟨some a, b, hk⟩
    · exact ⟨none, r1, h4⟩
  · exact ⟨none, cs, h2⟩

theorem optFrag_inv {cs : List Char} {k : List Char → Option α} {v : α}
    (h : optFrag cs k = some v) : ∃ r, k r = some v := by
  unfold optFrag at h
  rcases orElse_inv h with h1 | ⟨_, h2⟩
  · obtain ⟨r1, _, h1'⟩ := lit_inv h1
    obtain ⟨a, b, _, hk⟩ := starCls_inv h1'
    exact ⟨b, hk⟩
  · exact ⟨cs, h2⟩

/-- Any successful grammar match has a nonempty dialect token drawn from
`[\w:]`, a nonempty host capture, and the literal `://` right after the
dialect token. -/
theorem matchUriL_inv {cs : List Char} {g : UriGroups}
    (h : matchUriL cs = some g) :
    g.dialect ≠ [] ∧ g.dialect.all isDialectChar = true ∧ g.host ≠ [] ∧
      ∃ rest, cs = g.dialect ++ ':' :: '/' :: '/' :: rest := by
  unfold matchUriL at h
  obtain ⟨dial, b, hdne, hdall, hab, h1⟩ := plusCls_inv h
  obtain ⟨r2, hb, h2⟩ := lit_inv h1
  obtain ⟨ou, op, r3, h3⟩ := optUser_inv h2
  obtain ⟨hh, r4, hhne, h4⟩ := hostAlt_inv h3
  obtain ⟨po, r5, h5⟩ := optPort_inv h4
  obtain ⟨db, r6, h6⟩ := optDb_inv h5
  obtain ⟨ps, r7, h7⟩ := optParams_inv h6
  obtain ⟨r8, h8⟩ := optFrag_inv h7
  have hg : g = ⟨dial, ou, op, hh, po, db, ps⟩ := by
    by_cases he : r8.isEmpty
    · rw [if_pos he] at h8
      exact (Option.some.inj h8).symm
    · rw [if_neg he] at h8
      cases h8
  subst hg
  refine ⟨hdne, hdall, hhne, ⟨r2, ?_⟩⟩
  rw [← hab, hb]
  rfl



/-! ## Host fallback: when the bracket alternative fails

The host group tries `\[[^\]]+\]` first.  These lemmas characterise the
failure of that alternative — no `]` in the remaining input, an empty
`[^\]]+` run, or a continuation that rejects the bracketed capture — and
let the match fall through to the plain `[^:/]+` alternative. -/

theorem plusCls_nil_run {p : Char → Bool} {cs : List Char}
    {k : List Char → List Char → Option α}
    (h : cs.takeWhile p = []) : plusCls p cs k = none := by
  unfold plusCls
  rw [h]
  rfl

theorem plusCls_none {p : Char → Bool} {cs : List Char}
    {k : List Char → List Char → Option α}
    (h : ∀ a b, a ≠ [] → a.all p = true → a ++ b = cs → k a b = none) :
    plusCls p cs k = none := by
  cases hres : plusCls p cs k with
  | none => rfl
  | some v =>
    obtain ⟨a, b, hane, hall, hab, hk⟩ := plusCls_inv hres
    rw [h a b hane hall hab] at hk
    cases hk

theorem dropWhile_cons_head {p : Char → Bool} {l : List Char} {y : Char} {t : List Char}
    (h : l.dropWhile p = y :: t) :
    p y = false ∧ l = l.takeWhile p ++ y :: t := by
  constructor
  · induction l with
    | nil => cases h
    | cons c l' ih =>
      rw [List.dropWhile_cons] at h
      by_cases hc : p c = true
      · rw [if_pos hc] at h
        exact ih h
      · rw [if_neg hc] at h
        injection h with h1 h2
        rw [← h1]
        simpa using hc
  · rw [← h, List.takeWhile_append_dropWhile]

/-- Splitting a list against a `p`-clean prefix followed by a stop
character: a `p`-clean left part either ends exactly at the stop or
leaves a `p`-satisfying character at the head of the right part. -/
theorem stop_split {p : Char → Bool} {a b i t : List Char} {y : Char}
    (ha : a.all p = true) (hi : i.all p = true) (hy : p y = false)
    (h : a ++ b = i ++ y :: t) :
    (a = i ∧ b = y :: t) ∨ (∃ x b2, b = x :: b2 ∧ p x = true) := by
  induction a generalizing i with
  | nil =>
    cases i with
    | nil =>
      left
      exact ⟨rfl, by simpa using h⟩
    | cons c i' =>
      right
      rw [List.all_cons, Bool.and_eq_true] at hi
      refine ⟨c, i' ++ y :: t, ?_, hi.1⟩
      simpa using h
  | cons c a' ih =>
    cases i with
    | nil =>
      rw [List.nil_append, List.cons_append] at h
      injection h with h1 h2
      rw [List.all_cons, Bool.and_eq_true] at ha
      have hpc := ha.1
      rw [h1] at hpc
      rw [hpc] at hy
      cases hy
    | cons ci i' =>
      rw [List.cons_append, List.cons_append] at h
      injection h with h1 h2
      rw [List.all_cons, Bool.and_eq_true] at ha hi
      subst h1
      rcases ih ha.2 hi.2 h2 with ⟨ha1, ha2⟩ | hr
      · left
        exact ⟨by rw [ha1], ha2⟩
      · right
        exact hr

theorem optPort_skip {cs : List Char} {k : Option (List Char) → List Char → Option α}
    (h : cs.head? ≠ some ':') : optPort cs k = k none cs := by
  unfold optPort
  cases cs with
  | nil => rw [lit_nil_right, orElse_none_left rfl]
  | cons c cs' =>
    have hc : (':' : Char) ≠ c := fun he => h (by rw [← he]; rfl)
    rw [lit_head_ne hc, orElse_none_left rfl]

theorem optDb_skip {cs : List Char} {k : Option (List Char) → List Char → Option α}
    (h : cs.head? ≠ some '/') : optDb cs k = k none cs := by
  unfold optDb
  cases cs with
  | nil => rw [lit_nil_right, orElse_none_left rfl]
  | cons c cs' =>
    have hc : ('/' : Char) ≠ c := fun he => h (by rw [← he]; rfl)
    rw [lit_head_ne hc, orElse_none_left rfl]

theorem optParams_skip {cs : List Char} {k : Option (List Char) → List Char → Option α}
    (h : cs.head? ≠ some '?') : optParams cs k = k none cs := by
  unfold optParams
  cases cs with
  | nil => rw [lit_nil_right, orElse_none_left rfl]
  | cons c cs' =>
    have hc : ('?' : Char) ≠ c := fun he => h (by rw [← he]; rfl)
    rw [lit_head_ne hc, orElse_none_left rfl]

theorem optFrag_skip {cs : List Char} {k : List Char → Option α}
    (h : cs.head? ≠ some '#') : optFrag cs k = k cs := by
  unfold optFrag
  cases cs with
  | nil => rw [lit_nil_right, orElse_none_left rfl]
  | cons c cs' =>
    have hc : ('#' : Char) ≠ c := fun he => h (by rw [← he]; rfl)
    rw [lit_head_ne hc, orElse_none_left rfl]

/-- After a host capture, an input whose head triggers none of the
optional stages (`:` port, `/` database, `?` params, `#` fragment) and
which is nonempty fails the rest of the match. -/
theorem contStages_none
    {f : Option (List Char) → Option (List Char) → Option (List Char) → Option α}
    {cs : List Char} (hne : cs ≠ [])
    (hc1 : cs.head? ≠ some ':') (hc2 : cs.head? ≠ some '/')
    (hc3 : cs.head? ≠ some '?') (hc4 : cs.head? ≠ some '#') :
    (optPort cs fun po r5 => optDb r5 fun db r6 => optParams r6 fun ps r7 =>
      optFrag r7 fun r8 => if r8.isEmpty then f po db ps else none) = none := by
  rw [optPort_skip hc1]
  show optDb cs (fun db r6 => optParams r6 fun ps r7 =>
    optFrag r7 fun r8 => if r8.isEmpty then f none db ps else none) = none
  rw [optDb_skip hc2]
  show optParams cs (fun ps r7 =>
    optFrag r7 fun r8 => if r8.isEmpty then f none none ps else none) = none
  rw [optParams_skip hc3]
  show optFrag cs (fun r8 => if r8.isEmpty then f none none none else none) = none
  rw [optFrag_skip hc4]
  show (if cs.isEmpty then f none none none else none) = none
  have hemp : cs.isEmpty = false := by
    cases cs with
    | nil => exact absurd rfl hne
    | cons a l => rfl
  rw [hemp]
  rfl

/-- A failed bracket alternative falls through to the plain `[^:/]+`
alternative, which takes the maximal host-class run. -/
theorem hostAlt_of_brfail {h rest : List Char} {k : List Char → List Char → Option α}
    {v : α}
    (hbr : (lit ['['] (h ++ rest) fun r =>
        plusCls (fun c => c ≠ ']') r fun inner r2 =>
          lit [']'] r2 fun r3 => k ('[' :: (inner ++ [']'])) r3) = none)
    (hne : h ≠ [])
    (h1 : (h ++ rest).takeWhile isHostChar = h)
    (h2 : (h ++ rest).dropWhile isHostChar = rest)
    (hk : k h rest = some v) :
    hostAlt (h ++ rest) k = some v := by
  unfold hostAlt
  rw [orElse_none_left hbr]
  apply plusCls_of_max
  · rw [h1]; exact hne
  · rw [h1, h2]; exact hk

/-- The bracket alternative fails when the input has no `]` at all.
The continuation is abstracted as `g inner rest` over the `[^\]]+`
capture, so the lemma applies to the inlined continuation of the full
match. -/
theorem brfail_no_rbracket {cs0 : List Char} {g : List Char → List Char → Option α}
    (h : cs0.all (fun c => c ≠ ']') = true) :
    (lit ['['] ('[' :: cs0) fun r =>
      plusCls (fun c => c ≠ ']') r fun inner r2 =>
        lit [']'] r2 fun r3 => g inner r3) = none := by
  rw [show ('[' :: cs0) = ['['] ++ cs0 from rfl, lit_self_append]
  apply plusCls_none
  intro a b hane hall hab
  show lit [']'] b (fun r3 => g a r3) = none
  cases b with
  | nil => rfl
  | cons x b2 =>
    have hx : x ≠ ']' := by
      have hmem : x ∈ cs0 := by
        rw [← hab]
        exact List.mem_append.mpr (Or.inr (List.mem_cons_self x b2))
      rw [List.all_eq_true] at h
      simpa using h x hmem
    exact lit_head_ne (Ne.symm hx) _ _ _

/-- The bracket alternative fails when `[` is immediately followed by `]`
(the `[^\]]+` run would be empty). -/
theorem brfail_empty_run {cs0 : List Char} {g : List Char → List Char → Option α}
    (h : cs0.takeWhile (fun c => c ≠ ']') = []) :
    (lit ['['] ('[' :: cs0) fun r =>
      plusCls (fun c => c ≠ ']') r fun inner r2 =>
        lit [']'] r2 fun r3 => g inner r3) = none := by
  rw [show ('[' :: cs0) = ['['] ++ cs0 from rfl, lit_self_append]
  exact plusCls_nil_run h

/-- The bracket alternative fails when its only viable capture — up to
the first `]` — is rejected by the continuation. -/
theorem brfail_badcont {inner rest2 : List Char} {g : List Char → List Char → Option α}
    (hin : inner.all (fun c => c ≠ ']') = true)
    (hbad : g inner rest2 = none) :
    (lit ['['] ('[' :: (inner ++ ']' :: rest2)) fun r =>
      plusCls (fun c => c ≠ ']') r fun inner2 r2 =>
        lit [']'] r2 fun r3 => g inner2 r3) = none := by
  rw [show ('[' :: (inner ++ ']' :: rest2)) = ['['] ++ (inner ++ ']' :: rest2) from rfl,
    lit_self_append]
  apply plusCls_none
  intro a b hane hall hab
  show lit [']'] b (fun r3 => g a r3) = none
  rcases stop_split hall hin (by decide) hab with ⟨ha1, ha2⟩ | ⟨x, b2, hb, hx⟩
  · subst ha1
    rw [ha2, show (']' :: rest2) = [']'] ++ rest2 from rfl, lit_self_append]
    exact hbad
  · rw [hb]
    have hx' : x ≠ ']' := by simpa using hx
    exact lit_head_ne (Ne.symm hx') _ _ _

/-- Master lemma covering every `hostOk` host shape: a well-formed
`t://u:p@h:port/d[?q]` matches the grammar with exactly the intended
captures, whether the host is a plain run, a bracketed literal, or a
`[`-headed plain run on which the bracket alternative fails and the
match falls back. -/
theorem matchUriL_builtUri_anyHost (t u p h port d : List Char) (q : Option (List Char))
    (ht : t.all isDialectChar = true) (htne : t ≠ [])
    (hu : u.all isUserChar = true)
    (hp : p.all (fun c => c ≠ '@') = true)
    (hho : hostOk h = true)
    (hport : port.all Char.isDigit = true) (hpne : port ≠ [])
    (hd : d.all isDbChar = true)
    (hq : (q.getD []).all (fun c => c ≠ '#') = true)
    (hnorb : (port ++ '/' :: (d ++ paramsTail q)).all (fun c => c ≠ ']') = true) :
    matchUriL (builtUri t u p h port d q) =
      some ⟨t, some u, some p, h, some port, some d, q⟩ := by
  have hcont : ∀ h2 : List Char,
      optPort (':' :: (port ++ '/' :: (d ++ paramsTail q)))
        (fun po r5 => optDb r5 fun db r6 => optParams r6 fun ps r7 =>
          optFrag r7 fun r8 =>
            if r8.isEmpty then
              some (⟨t, some u, some p, h2, po, db, ps⟩ : UriGroups)
            else none) =
      some (⟨t, some u, some p, h2, some port, some d, q⟩ : UriGroups) := by
    intro h2
    apply optPort_build hport hpne
    · exact takeWhile_append_stop _ hport (by decide)
    · exact dropWhile_append_stop _ hport (by decide)
    cases q with
    | none =>
      rw [show paramsTail none = [] from rfl]
      apply optDb_build (by simpa using takeWhile_all_eq hd)
        (by simpa using dropWhile_all_eq hd)
      apply optParams_build_none
      apply optFrag_build_nil
      rfl
    | some qq =>
      rw [show paramsTail (some qq) = '?' :: qq from rfl]
      apply optDb_build (takeWhile_append_stop _ hd (by decide))
        (dropWhile_append_stop _ hd (by decide))
      apply optParams_build_some (by simpa using hq)
      apply optFrag_build_nil
      rfl
  unfold matchUriL builtUri
  apply plusDialect_step ht htne
  · exact lit_head_ne (by decide) _ _ _
  · rw [show (':' :: '/' :: '/' ::
        (u ++ ':' :: (p ++ '@' :: (h ++ ':' :: (port ++ '/' :: (d ++ paramsTail q)))))) =
        (':' :: '/' :: '/' :: []) ++
        (u ++ ':' :: (p ++ '@' :: (h ++ ':' :: (port ++ '/' :: (d ++ paramsTail q)))))
        from rfl, lit_self_append]
    apply optUser_build hu hp
    cases h with
    | nil => exact absurd hho (by decide)
    | cons c h' =>
      unfold hostOk at hho
      simp only [List.head?_cons, List.tail_cons] at hho
      by_cases hc : c = '['
      · rw [if_pos (by rw [hc])] at hho
        subst hc
        have hinall : (h'.takeWhile (fun ch => ch ≠ ']')).all (fun c => c ≠ ']') = true := by
          rw [List.all_eq_true]
          intro x hx
          have h0 := List.mem_takeWhile_imp hx
          simpa using h0
        cases hdw : h'.dropWhile (fun ch => ch ≠ ']') with
        | nil =>
          rw [if_pos (Or.inl hdw)] at hho
          have hallh : ('[' :: h').all isHostChar = true := hho
          have hh'all : h'.all (fun ch => ch ≠ ']') = true := by
            rw [List.all_eq_true]
            intro x hx
            exact List.dropWhile_eq_nil_iff.mp hdw x hx
          have hbig : (h' ++ ':' :: (port ++ '/' :: (d ++ paramsTail q))).all
              (fun ch => ch ≠ ']') = true := by
            rw [List.all_append, hh'all, List.all_cons, hnorb]
            rfl
          apply hostAlt_of_brfail
          · rw [show (('[' :: h') ++ ':' :: (port ++ '/' :: (d ++ paramsTail q))) =
              '[' :: (h' ++ ':' :: (port ++ '/' :: (d ++ paramsTail q))) from rfl]
            exact brfail_no_rbracket hbig
          · exact List.cons_ne_nil _ _
          · exact takeWhile_append_stop _ hallh (by decide)
          · exact dropWhile_append_stop _ hallh (by decide)
          · exact hcont _
        | cons y tail =>
          obtain ⟨hy, hsplit⟩ := dropWhile_cons_head hdw
          have hy' : y = ']' := by simpa using hy
          subst hy'
          by_cases hinner : h'.takeWhile (fun ch => ch ≠ ']') = []
          · rw [if_pos (Or.inr hinner)] at hho
            have hallh : ('[' :: h').all isHostChar = true := hho
            apply hostAlt_of_brfail
            · rw [show (('[' :: h') ++ ':' :: (port ++ '/' :: (d ++ paramsTail q))) =
                '[' :: (h' ++ ':' :: (port ++ '/' :: (d ++ paramsTail q))) from rfl]
              apply brfail_empty_run
              rw [hsplit, hinner]
              simp [List.takeWhile_cons]
            · exact List.cons_ne_nil _ _
            · exact takeWhile_append_stop _ hallh (by decide)
            · exact dropWhile_append_stop _ hallh (by decide)
            · exact hcont _
          · rw [if_neg (fun hor => Or.elim hor
              (fun ha => absurd (hdw ▸ ha) (List.cons_ne_nil _ _)) hinner)] at hho
            simp only [hdw, List.tail_cons] at hho
            cases htail : tail with
            | nil =>
              rw [htail] at hsplit
              rw [show (('[' :: h') ++ ':' :: (port ++ '/' :: (d ++ paramsTail q))) =
                '[' :: (h' ++ ':' :: (port ++ '/' :: (d ++ paramsTail q))) from rfl]
              rw [hsplit]
              rw [show ((h'.takeWhile (fun ch => ch ≠ ']') ++ ']' :: []) ++
                  ':' :: (port ++ '/' :: (d ++ paramsTail q))) =
                  h'.takeWhile (fun ch => ch ≠ ']') ++
                    ']' :: (':' :: (port ++ '/' :: (d ++ paramsTail q))) by simp]
              apply hostAlt_build_bracket hinner hinall
              exact hcont _
            | cons c2 tail2 =>
              rw [htail] at hsplit
              simp only [htail] at hho
              rw [if_neg (List.cons_ne_nil _ _)] at hho
              simp only [List.head?_cons] at hho
              rw [Bool.and_eq_true, Bool.and_eq_true] at hho
              have hallh : ('[' :: h').all isHostChar = true := hho.2
              have hc2q : c2 ≠ '?' := by
                have hd1 := hho.1.1
                simp only [decide_eq_true_eq] at hd1
                intro he
                exact hd1 (by rw [he])
              have hc2h : c2 ≠ '#' := by
                have hd2 := hho.1.2
                simp only [decide_eq_true_eq] at hd2
                intro he
                exact hd2 (by rw [he])
              have hc2host : isHostChar c2 = true := by
                have hmem : c2 ∈ h' := by
                  rw [hsplit]
                  exact List.mem_append.mpr (Or.inr (by simp))
                exact List.all_eq_true.mp hallh c2 (List.mem_cons_of_mem _ hmem)
              have hc2colon : c2 ≠ ':' := by
                intro he
                rw [he] at hc2host
                exact absurd hc2host (by decide)
              have hc2slash : c2 ≠ '/' := by
                intro he
                rw [he] at hc2host
                exact absurd hc2host (by decide)
              apply hostAlt_of_brfail
              · rw [show (('[' :: h') ++ ':' :: (port ++ '/' :: (d ++ paramsTail q))) =
                  '[' :: (h' ++ ':' :: (port ++ '/' :: (d ++ paramsTail q))) from rfl]
                rw [hsplit]
                rw [show ((h'.takeWhile (fun ch => ch ≠ ']') ++ ']' :: c2 :: tail2) ++
                    ':' :: (port ++ '/' :: (d ++ paramsTail q))) =
                    h'.takeWhile (fun ch => ch ≠ ']') ++
                      ']' :: ((c2 :: tail2) ++ ':' :: (port ++ '/' :: (d ++ paramsTail q)))
                    by simp]
                apply brfail_badcont hinall
                exact contStages_none (by simp) (by simp [hc2colon]) (by simp [hc2slash])
                  (by simp [hc2q]) (by simp [hc2h])
              · exact List.cons_ne_nil _ _
              · exact takeWhile_append_stop _ hallh (by decide)
              · exact dropWhile_append_stop _ hallh (by decide)
              · exact hcont _
      · rw [if_neg (fun he => hc (Option.some.inj he))] at hho
        have hallh : (c :: h').all isHostChar = true := by
          rw [Bool.and_eq_true] at hho
          exact hho.2
        apply hostAlt_build_plain hallh (List.cons_ne_nil _ _)
        · simpa using hc
        · exact takeWhile_append_stop _ hallh (by decide)
        · exact dropWhile_append_stop _ hallh (by decide)
        · exact hcont _


/-! ## Case-mapping bridge: upper-case comparison equals lower-case comparison -/

theorem charEq_iff_toNat {a b : Char} : a = b ↔ a.toNat = b.toNat :=
  ⟨fun h => by rw [h], fun h => by
    rw [← Char.ofNat_toNat a, h, Char.ofNat_toNat]⟩

theorem toNat_ofNat_valid {n : Nat} (h : n.isValidChar) :
    (Char.ofNat n).toNat = n := by
  unfold Char.ofNat
  rw [dif_pos h]
  rfl

theorem toUpper_toNat (c : Char) :
    c.toUpper.toNat = if 97 ≤ c.toNat ∧ c.toNat ≤ 122 then c.toNat - 32 else c.toNat := by
  unfold Char.toUpper
  by_cases h : 97 ≤ c.toNat ∧ c.toNat ≤ 122
  · rw [if_pos h, if_pos h, toNat_ofNat_valid (Or.inl (by omega))]
  · rw [if_neg h, if_neg h]

theorem toLower_toNat (c : Char) :
    c.toLower.toNat = if 65 ≤ c.toNat ∧ c.toNat ≤ 90 then c.toNat + 32 else c.toNat := by
  unfold Char.toLower
  by_cases h : 65 ≤ c.toNat ∧ c.toNat ≤ 90
  · rw [if_pos h, if_pos h, toNat_ofNat_valid (Or.inl (by omega))]
  · rw [if_neg h, if_neg h]

theorem toUpper_eq_iff_toLower_eq (a b : Char) :
    Char.toUpper a = Char.toUpper b ↔ Char.toLower a = Char.toLower b := by
  rw [charEq_iff_toNat, charEq_iff_toNat, toUpper_toNat, toUpper_toNat,
    toLower_toNat, toLower_toNat]
  split_ifs <;> omega

theorem toUpperL_eq_iff (d t : List Char) :
    toUpperL d = toUpperL t ↔ toLowerL d = toLowerL t := by
  induction d generalizing t with
  | nil => cases t <;> simp [toUpperL, toLowerL]
  | cons c d ih =>
    cases t with
    | nil => simp [toUpperL, toLowerL]
    | cons c2 t2 =>
      simp only [toUpperL, toLowerL, List.map_cons, List.cons.injEq]
      constructor
      · rintro ⟨h1, h2⟩
        exact ⟨(toUpper_eq_iff_toLower_eq c c2).mp h1, (ih t2).mp h2⟩
      · rintro ⟨h1, h2⟩
        exact ⟨(toUpper_eq_iff_toLower_eq c c2).mpr h1, (ih t2).mpr h2⟩

/-! ## Percent-decoding lemmas -/

theorem safeDecode_nil : safeDecodeURIComponentL [] = [] := rfl

theorem safeDecode_of_fail {cs : List Char} (h : decodeURIComponentOpt cs = none) :
    safeDecodeURIComponentL cs = cs := by
  unfold safeDecodeURIComponentL
  rw [h]

theorem safeDecode_of_ok {cs t : List Char} (h : decodeURIComponentOpt cs = some t) :
    safeDecodeURIComponentL cs = t := by
  unfold safeDecodeURIComponentL
  rw [h]

theorem uriTokens_no_escape {cs : List Char} (h : cs.all (fun c => c ≠ '%') = true) :
    uriTokens cs = some (cs.map Sum.inr) := by
  induction cs with
  | nil => rfl
  | cons c cs ih =>
    simp only [List.all_cons, Bool.and_eq_true] at h
    have hc : ¬(c = '%') := by simpa using h.1
    unfold uriTokens
    rw [if_neg hc, ih h.2]
    rfl

theorem decodeTokens_inr (cs : List Char) :
    decodeTokens (cs.map Sum.inr) = some cs := by
  induction cs with
  | nil => rfl
  | cons c cs ih =>
    show (decodeTokens (List.map Sum.inr cs)).map (fun l => c :: l) = some (c :: cs)
    rw [ih]
    rfl

theorem decode_no_escape {cs : List Char} (h : cs.all (fun c => c ≠ '%') = true) :
    decodeURIComponentOpt cs = some cs := by
  unfold decodeURIComponentOpt
  rw [uriTokens_no_escape h]
  simpa using decodeTokens_inr cs

theorem safeDecode_no_escape {cs : List Char} (h : cs.all (fun c => c ≠ '%') = true) :
    safeDecodeURIComponentL cs = cs :=
  safeDecode_of_ok (decode_no_escape h)

/-! ## Decimal digits round-trip -/

theorem digitsToNat_append_digit (xs : List Char) (c : Char) :
    digitsToNat (xs ++ [c]) = digitsToNat xs * 10 + (c.toNat - 48) := by
  simp [digitsToNat, List.foldl_append]

theorem portDigitsAux_roundtrip (fuel n : Nat) (h : n < 10 ^ fuel) :
    digitsToNat (portDigitsAux fuel n) = n := by
  induction fuel generalizing n with
  | zero =>
    have h0 : n = 0 := by simpa using h
    simp [portDigitsAux, h0, digitsToNat]
  | succ fuel ih =>
    by_cases h0 : n = 0
    · simp [portDigitsAux, h0, digitsToNat]
    · unfold portDigitsAux
      rw [if_neg h0, digitsToNat_append_digit]
      have hb : n / 10 < 10 ^ fuel := by
        rw [Nat.div_lt_iff_lt_mul (by omega : 0 < 10)]
        calc n < 10 ^ (fuel + 1) := h
          _ = 10 ^ fuel * 10 := by rw [pow_succ]
      rw [ih (n / 10) hb]
      have hm : n % 10 < 10 := Nat.mod_lt _ (by omega)
      rw [toNat_ofNat_valid (Or.inl (by omega))]
      omega

theorem digitsToNat_portDigits (n : Nat) : digitsToNat (portDigits n) = n := by
  unfold portDigits
  by_cases h0 : n = 0
  · rw [if_pos h0, h0]
    decide
  · rw [if_neg h0]
    exact portDigitsAux_roundtrip n n (Nat.lt_pow_self (by omega) n)

theorem portDigits_ne_nil (n : Nat) : portDigits n ≠ [] := by
  unfold portDigits
  by_cases h0 : n = 0
  · rw [if_pos h0]
    simp
  · rw [if_neg h0]
    cases n with
    | zero => exact absurd rfl h0
    | succ m =>
      unfold portDigitsAux
      rw [if_neg h0]
      simp

theorem portDigitsAux_all_digit (fuel n : Nat) :
    (portDigitsAux fuel n).all Char.isDigit = true := by
  induction fuel generalizing n with
  | zero => rfl
  | succ fuel ih =>
    unfold portDigitsAux
    by_cases h0 : n = 0
    · rw [if_pos h0]
      rfl
    · rw [if_neg h0]
      rw [List.all_append, Bool.and_eq_true]
      refine ⟨ih (n / 10), ?_⟩
      have hm : n % 10 < 10 := Nat.mod_lt _ (by omega)
      have hg : ∀ k : Nat, k < 10 → (Char.ofNat (48 + k)).isDigit = true := by
        intro k hk
        interval_cases k <;> decide
      simp [hg (n % 10) hm]

theorem portDigits_all_digit (n : Nat) : (portDigits n).all Char.isDigit = true := by
  unfold portDigits
  by_cases h0 : n = 0
  · rw [if_pos h0]
    decide
  · rw [if_neg h0]
    exact portDigitsAux_all_digit n n

/-! ## Field lemmas for the credential record -/

theorem paramsPart_nil (db0 : List Char) : paramsPart db0 [] = (db0, true) := by
  simp [paramsPart]

theorem paramsPart_sslParams (db0 : List Char) (b : Bool) :
    paramsPart db0 (sslParams b) = (db0, b) := by
  cases b
  · rw [show sslParams false = "sslmode=disable".data from rfl]
    simp only [paramsPart]
    rw [if_neg (show ¬("sslmode=disable".data : List Char) = [] from by decide)]
    rw [show paramsGet (urlSearchParams ("sslmode=disable".data)) "database".data =
        none from rfl]
    rw [show (paramsGet (urlSearchParams ("sslmode=disable".data))
          "sslmode".data).orElse (fun _ =>
        (paramsGet (urlSearchParams ("sslmode=disable".data))
          "ssl-mode".data).orElse fun _ =>
          paramsGet (urlSearchParams ("sslmode=disable".data)) "ssl".data) =
        some ("disable".data) from rfl]
    rw [Prod.mk.injEq]
    constructor
    · by_cases hx : db0 = [] <;> simp [hx]
    · decide
  · rw [show sslParams true = "sslmode=require".data from rfl]
    simp only [paramsPart]
    rw [if_neg (show ¬("sslmode=require".data : List Char) = [] from by decide)]
    rw [show paramsGet (urlSearchParams ("sslmode=require".data)) "database".data =
        none from rfl]
    rw [show (paramsGet (urlSearchParams ("sslmode=require".data))
          "sslmode".data).orElse (fun _ =>
        (paramsGet (urlSearchParams ("sslmode=require".data))
          "ssl-mode".data).orElse fun _ =>
          paramsGet (urlSearchParams ("sslmode=require".data)) "ssl".data) =
        some ("require".data) from rfl]
    rw [Prod.mk.injEq]
    constructor
    · by_cases hx : db0 = [] <;> simp [hx]
    · decide

theorem credOfGroups_host (g : UriGroups) : (credOfGroups g).host = g.host := rfl

theorem credOfGroups_username (g : UriGroups) :
    (credOfGroups g).username = safeDecodeURIComponentL (g.username.getD []) := by
  simp only [credOfGroups]
  by_cases hr : g.username.getD [] = [] <;> simp [hr, safeDecode_nil]

theorem credOfGroups_password (g : UriGroups) :
    (credOfGroups g).password =
      (if safeDecodeURIComponentL (g.password.getD []) = placeholderPassword then []
       else safeDecodeURIComponentL (g.password.getD [])) := by
  simp only [credOfGroups]
  by_cases hr : g.password.getD [] = [] <;> simp [hr, safeDecode_nil]

theorem credOfGroups_port (g : UriGroups) :
    (credOfGroups g).port =
      (if g.port.getD [] = [] then none else some (digitsToNat (g.port.getD []))) := rfl

theorem extractCreds_password_ne_placeholder {s : List Char} {c : ParsedCredentials}
    (h : extractCredentialsFromUriL s = some c) : c.password ≠ placeholderPassword := by
  unfold extractCredentialsFromUriL at h
  cases hm : matchUriL s with
  | none => rw [hm] at h; cases h
  | some g =>
    rw [hm] at h
    have hc : c = credOfGroups g := (Option.some.inj h).symm
    subst hc
    rw [credOfGroups_password]
    by_cases hph : safeDecodeURIComponentL (g.password.getD []) = placeholderPassword
    · rw [if_pos hph]
      decide
    · rw [if_neg hph]
      exact hph

/-! ## Claim C2 -/

/-- C2 counterexample: the claim asserts there exists an input on which the
grammar match succeeds with an empty host capture; in fact the host group
of the regular expression requires at least one character, so no
successful match has an empty host. -/
theorem claim2_counterexample :
    ¬ ∃ (s : List Char) (g : UriGroups), matchUriL s = some g ∧ g.host = [] := by
  rintro ⟨s, g, hm, hh⟩
  exact (matchUriL_inv hm).2.2.1 hh

/-- C2 (amended): the host component is structurally required, not
optional: whenever `extractCredentialsFromUri` returns a record, its host
field is nonempty, so a missing host surfaces as a parse failure (`none`)
rather than as an empty host string. -/
theorem claim2_theorem (s : List Char) (c : ParsedCredentials)
    (h : extractCredentialsFromUriL s = some c) : c.host ≠ [] := by
  unfold extractCredentialsFromUriL at h
  cases hm : matchUriL s with
  | none => rw [hm] at h; cases h
  | some g =>
    rw [hm] at h
    have hc : c = credOfGroups g := (Option.some.inj h).symm
    subst hc
    rw [credOfGroups_host]
    exact (matchUriL_inv hm).2.2.1

/-- C2 witness: a concrete successful parse, with the theorem giving the
nonemptiness of its host. -/
theorem claim2_witness :
    extractCredentialsFromUriL ("postgres://h".data) =
      some ⟨[], [], ['h'], none, [], true⟩ ∧
    (⟨[], [], ['h'], none, [], true⟩ : ParsedCredentials).host ≠ [] :=
  ⟨by decide, claim2_theorem ("postgres://h".data) _ (by decide)⟩

/-! ## Claim C5 -/

/-- C5: credential extraction fails exactly when the grammar does not
match; inputs without the `://` separator fail both operations; a
classified dialect implies extractable credentials; and credentials can
succeed while classification fails (unrecognized dialect). -/
theorem claim5_theorem :
    (∀ s : List Char, extractCredentialsFromUriL s = none ↔ matchUriL s = none)
    ∧ (∀ s : List Char, ¬ ("://".data <:+: s) →
        extractDialectFromUriL s = none ∧ extractCredentialsFromUriL s = none)
    ∧ (∀ (s : List Char) (dl : DatabaseDialect), extractDialectFromUriL s = some dl →
        ∃ c, extractCredentialsFromUriL s = some c)
    ∧ (∃ (s : List Char) (c : ParsedCredentials),
        extractDialectFromUriL s = none ∧ extractCredentialsFromUriL s = some c) := by
  refine ⟨?_, ?_, ?_, ?_⟩
  · intro s
    cases hm : matchUriL s <;> simp [extractCredentialsFromUriL, hm]
  · intro s hni
    have hm : matchUriL s = none := by
      cases hmm : matchUriL s with
      | none => rfl
      | some g =>
        obtain ⟨-, -, -, rest, hs⟩ := matchUriL_inv hmm
        refine absurd ⟨g.dialect, rest, ?_⟩ hni
        rw [hs]
        simp
    exact ⟨by simp [extractDialectFromUriL, hm], by simp [extractCredentialsFromUriL, hm]⟩
  · intro s dl h
    unfold extractDialectFromUriL at h
    cases hm : matchUriL s with
    | none => rw [hm] at h; cases h
    | some g => exact ⟨credOfGroups g, by simp [extractCredentialsFromUriL, hm]⟩
  · exact ⟨"foo://h".data, ⟨[], [], ['h'], none, [], true⟩, by decide, by decide⟩

/-- C5 witness: the separator-free input `nouri` fails both operations,
and a recognized dialect comes with extractable credentials. -/
theorem claim5_witness :
    (extractDialectFromUriL ("nouri".data) = none ∧
      extractCredentialsFromUriL ("nouri".data) = none)
    ∧ (∃ c, extractCredentialsFromUriL ("postgres://h".data) = some c) :=
  ⟨claim5_theorem.2.1 ("nouri".data) (by decide),
   claim5_theorem.2.2.1 ("postgres://h".data) .POSTGRES (by decide)⟩

/-! ## Claim C8 -/

/-- C8: both operations are total functions into `Option` (never raising),
and `safeDecodeURIComponent` falls back to the raw string exactly when
strict decoding fails; query-parameter parsing (`URLSearchParams` on a
string) is itself total, so no parameter-parsing failure can surface. -/
theorem claim8_theorem :
    (∀ s : List Char, decodeURIComponentOpt s = none → safeDecodeURIComponentL s = s)
    ∧ (∀ s t : List Char, decodeURIComponentOpt s = some t → safeDecodeURIComponentL s = t)
    ∧ (∀ s : List Char, extractDialectFromUriL s = none ∨
        ∃ dl, extractDialectFromUriL s = some dl)
    ∧ (∀ s : List Char, extractCredentialsFromUriL s = none ∨
        ∃ c, extractCredentialsFromUriL s = some c) := by
  refine ⟨fun s h => safeDecode_of_fail h, fun s t h => safeDecode_of_ok h, ?_, ?_⟩
  · intro s
    cases h : extractDialectFromUriL s with
    | none => exact Or.inl rfl
    | some dl => exact Or.inr ⟨dl, rfl⟩
  · intro s
    cases h : extractCredentialsFromUriL s with
    | none => exact Or.inl rfl
    | some c => exact Or.inr ⟨c, rfl⟩

/-- C8 witness: a malformed escape falls back to the raw text, a valid
escape decodes. -/
theorem claim8_witness :
    safeDecodeURIComponentL ("%".data) = "%".data ∧
    safeDecodeURIComponentL ("%41".data) = "A".data :=
  ⟨claim8_theorem.1 ("%".data) (by decide),
   claim8_theorem.2.1 ("%41".data) ("A".data) (by decide)⟩



/-! ## Claim C3 -/

/-- C3: for every input that matches the grammar, the implementation's
upper-case `switch` on the dialect token agrees with the specification's
case-insensitive mapping table (`specDialectMap`), including the
Supabase/PlanetScale provider-substring replacements. -/
theorem claim3_theorem (s : List Char) (g : UriGroups) (h : matchUriL s = some g) :
    extractDialectFromUriL s = specDialectMap g.dialect s := by
  have e1 : toUpperL g.dialect = "POSTGRES".data ↔
      toLowerL g.dialect = "postgres".data := by
    have h1 := toUpperL_eq_iff g.dialect ("postgres".data)
    rw [show toUpperL ("postgres".data) = "POSTGRES".data from rfl,
      show toLowerL ("postgres".data) = "postgres".data from rfl] at h1
    exact h1
  have e2 : toUpperL g.dialect = "POSTGRESQL".data ↔
      toLowerL g.dialect = "postgresql".data := by
    have h1 := toUpperL_eq_iff g.dialect ("postgresql".data)
    rw [show toUpperL ("postgresql".data) = "POSTGRESQL".data from rfl,
      show toLowerL ("postgresql".data) = "postgresql".data from rfl] at h1
    exact h1
  have e3 : toUpperL g.dialect = "MYSQL".data ↔
      toLowerL g.dialect = "mysql".data := by
    have h1 := toUpperL_eq_iff g.dialect ("mysql".data)
    rw [show toUpperL ("mysql".data) = "MYSQL".data from rfl,
      show toLowerL ("mysql".data) = "mysql".data from rfl] at h1
    exact h1
  have e4 : toUpperL g.dialect = "JDBC:CLICKHOUSE".data ↔
      toLowerL g.dialect = "jdbc:clickhouse".data := by
    have h1 := toUpperL_eq_iff g.dialect ("jdbc:clickhouse".data)
    rw [show toUpperL ("jdbc:clickhouse".data) = "JDBC:CLICKHOUSE".data from rfl,
      show toLowerL ("jdbc:clickhouse".data) = "jdbc:clickhouse".data from rfl] at h1
    exact h1
  have e5 : toUpperL g.dialect = "CLICKHOUSE".data ↔
      toLowerL g.dialect = "clickhouse".data := by
    have h1 := toUpperL_eq_iff g.dialect ("clickhouse".data)
    rw [show toUpperL ("clickhouse".data) = "CLICKHOUSE".data from rfl,
      show toLowerL ("clickhouse".data) = "clickhouse".data from rfl] at h1
    exact h1
  have e6 : toUpperL g.dialect = "SQLSERVER".data ↔
      toLowerL g.dialect = "sqlserver".data := by
    have h1 := toUpperL_eq_iff g.dialect ("sqlserver".data)
    rw [show toUpperL ("sqlserver".data) = "SQLSERVER".data from rfl,
      show toLowerL ("sqlserver".data) = "sqlserver".data from rfl] at h1
    exact h1
  have e7 : toUpperL g.dialect = "MSSQL".data ↔
      toLowerL g.dialect = "mssql".data := by
    have h1 := toUpperL_eq_iff g.dialect ("mssql".data)
    rw [show toUpperL ("mssql".data) = "MSSQL".data from rfl,
      show toLowerL ("mssql".data) = "mssql".data from rfl] at h1
    exact h1
  have e8 : toUpperL g.dialect = "SQL_SERVER".data ↔
      toLowerL g.dialect = "sql_server".data := by
    have h1 := toUpperL_eq_iff g.dialect ("sql_server".data)
    rw [show toUpperL ("sql_server".data) = "SQL_SERVER".data from rfl,
      show toLowerL ("sql_server".data) = "sql_server".data from rfl] at h1
    exact h1
  simp only [extractDialectFromUriL, specDialectMap, h]
  by_cases h1 : toLowerL g.dialect = "postgres".data ∨
      toLowerL g.dialect = "postgresql".data
  · rw [if_pos ((or_congr e1 e2).mpr h1), if_pos h1]
  · rw [if_neg (fun hx => h1 ((or_congr e1 e2).mp hx)), if_neg h1]
    by_cases h2 : toLowerL g.dialect = "mysql".data
    · rw [if_pos (e3.mpr h2), if_pos h2]
    · rw [if_neg (fun hx => h2 (e3.mp hx)), if_neg h2]
      by_cases h3 : toLowerL g.dialect = "clickhouse".data ∨
          toLowerL g.dialect = "jdbc:clickhouse".data
      · have h3' : toUpperL g.dialect = "JDBC:CLICKHOUSE".data ∨
            toUpperL g.dialect = "CLICKHOUSE".data := by
          rcases h3 with h3 | h3
          · exact Or.inr (e5.mpr h3)
          · exact Or.inl (e4.mpr h3)
        rw [if_pos h3', if_pos h3]
      · have h3' : ¬(toUpperL g.dialect = "JDBC:CLICKHOUSE".data ∨
            toUpperL g.dialect = "CLICKHOUSE".data) := by
          rintro (hx | hx)
          · exact h3 (Or.inr (e4.mp hx))
          · exact h3 (Or.inl (e5.mp hx))
        rw [if_neg h3', if_neg h3]
        by_cases h4 : toLowerL g.dialect = "sqlserver".data ∨
            toLowerL g.dialect = "mssql".data ∨
            toLowerL g.dialect = "sql_server".data
        · rw [if_pos ((or_congr e6 (or_congr e7 e8)).mpr h4), if_pos h4]
        · rw [if_neg (fun hx => h4 ((or_congr e6 (or_congr e7 e8)).mp hx)), if_neg h4]

/-- C3 witness: a concrete MySQL-family URI containing `psdb` classifies
as the table says. -/
theorem claim3_witness :
    matchUriL ("mysql://u@psdb.host/db".data) =
      some ⟨"mysql".data, some ['u'], none, "psdb.host".data, none, some "db".data, none⟩ ∧
    extractDialectFromUriL ("mysql://u@psdb.host/db".data) =
      specDialectMap "mysql".data ("mysql://u@psdb.host/db".data) :=
  ⟨by decide, claim3_theorem ("mysql://u@psdb.host/db".data)
    ⟨"mysql".data, some ['u'], none, "psdb.host".data, none, some "db".data, none⟩
    (by decide)⟩



/-! ## Claim C4 -/

/-- C4: for every input that matches the grammar, the `sslEnabled` field
is resolved exactly as the specification words it: the first present key
among `sslmode`, `ssl-mode`, `ssl` is taken, and SSL is disabled iff its
lower-cased value is `disable` or `false` (`sslResolutionSpec`). -/
theorem claim4_theorem (s : List Char) (g : UriGroups) (h : matchUriL s = some g) :
    ∃ c, extractCredentialsFromUriL s = some c ∧
      c.sslEnabled = sslResolutionSpec (g.params.getD []) := by
  refine ⟨credOfGroups g, by simp [extractCredentialsFromUriL, h], ?_⟩
  simp only [credOfGroups, paramsPart, sslResolutionSpec]
  by_cases hp : g.params.getD [] = []
  · rw [hp]
    rfl
  · rw [if_neg hp]
    cases hm : (paramsGet (urlSearchParams (g.params.getD [])) "sslmode".data).orElse
        fun _ => (paramsGet (urlSearchParams (g.params.getD [])) "ssl-mode".data).orElse
          fun _ => paramsGet (urlSearchParams (g.params.getD [])) "ssl".data with
    | none => rfl
    | some m =>
      show (if m = [] then true
          else decide (toLowerL m ≠ "disable".data) && decide (toLowerL m ≠ "false".data)) =
        if toLowerL m = "disable".data ∨ toLowerL m = "false".data then false else true
      by_cases hme : m = []
      · subst hme
        simp [toLowerL]
      · rw [if_neg hme]
        by_cases h1 : toLowerL m = "disable".data <;>
          by_cases h2 : toLowerL m = "false".data <;>
          simp [h1, h2]

/-- C4 witness: `sslmode=disable` in the query parameters disables SSL. -/
theorem claim4_witness :
    ∃ c, extractCredentialsFromUriL ("postgres://h:1/db?sslmode=disable".data) = some c ∧
      c.sslEnabled = sslResolutionSpec ("sslmode=disable".data) :=
  claim4_theorem ("postgres://h:1/db?sslmode=disable".data)
    ⟨"postgres".data, none, none, ['h'], some ['1'], some "db".data,
      some "sslmode=disable".data⟩ (by decide)

/-! ## Claim C6 -/

/-- C6: for every input that matches the grammar, the returned
`databaseName` is the percent-decoding of the selected source
(`dbSelectSpec`): the nonempty path segment when present, otherwise the
value of a `database` query parameter, otherwise the empty string. -/
theorem claim6_theorem (s : List Char) (g : UriGroups) (h : matchUriL s = some g) :
    ∃ c, extractCredentialsFromUriL s = some c ∧
      c.databaseName = safeDecodeURIComponentL (dbSelectSpec g) := by
  refine ⟨credOfGroups g, by simp [extractCredentialsFromUriL, h], ?_⟩
  simp only [credOfGroups, paramsPart, dbSelectSpec]
  by_cases hp : g.params.getD [] = []
  · rw [hp]
    by_cases hdb : g.database.getD [] = [] <;>
      simp [hdb, safeDecode_nil, paramsGet, urlSearchParams, splitOnChar]
  · rw [if_neg hp]
    by_cases hdb : g.database.getD [] = []
    · simp only [hdb, if_pos, ne_eq, not_true_eq_false, if_false, ite_true, if_true]
      cases hg : paramsGet (urlSearchParams (g.params.getD [])) "database".data with
      | none => simp [safeDecode_nil]
      | some v =>
        by_cases hv : v = [] <;> simp [hv, safeDecode_nil]
    · simp [hdb, safeDecode_nil]

/-- C6 witness: the SQL Server form with the database name in the query
parameters uses the fallback. -/
theorem claim6_witness :
    ∃ c, extractCredentialsFromUriL ("sqlserver://host:1433?database=db".data) = some c ∧
      c.databaseName = safeDecodeURIComponentL (dbSelectSpec
        ⟨"sqlserver".data, none, none, "host".data, some "1433".data, none,
          some "database=db".data⟩) :=
  claim6_theorem ("sqlserver://host:1433?database=db".data)
    ⟨"sqlserver".data, none, none, "host".data, some "1433".data, none,
      some "database=db".data⟩ (by decide)

/-! ## Claim C7 -/

/-- C7: for every input that matches the grammar, a password whose
percent-decoded value is exactly the placeholder `[YOUR-PASSWORD]` is
normalized to the empty string, and every other password is returned as
its percent-decoded value unchanged. -/
theorem claim7_theorem (s : List Char) (g : UriGroups) (h : matchUriL s = some g) :
    ∃ c, extractCredentialsFromUriL s = some c ∧
      (safeDecodeURIComponentL (g.password.getD []) = placeholderPassword →
        c.password = []) ∧
      (safeDecodeURIComponentL (g.password.getD []) ≠ placeholderPassword →
        c.password = safeDecodeURIComponentL (g.password.getD [])) := by
  refine ⟨credOfGroups g, by simp [extractCredentialsFromUriL, h], ?_, ?_⟩
  · intro hph
    rw [credOfGroups_password, if_pos hph]
  · intro hph
    rw [credOfGroups_password, if_neg hph]

/-- C7 witness: the literal placeholder password is normalized to the
empty string. -/
theorem claim7_witness :
    ∃ c, extractCredentialsFromUriL ("postgres://u:[YOUR-PASSWORD]@h:1/d".data) = some c ∧
      (safeDecodeURIComponentL ("[YOUR-PASSWORD]".data) = placeholderPassword →
        c.password = []) ∧
      (safeDecodeURIComponentL ("[YOUR-PASSWORD]".data) ≠ placeholderPassword →
        c.password = safeDecodeURIComponentL ("[YOUR-PASSWORD]".data)) :=
  claim7_theorem ("postgres://u:[YOUR-PASSWORD]@h:1/d".data)
    ⟨"postgres".data, some ['u'], some "[YOUR-PASSWORD]".data, ['h'], some ['1'],
      some ['d'], none⟩ (by decide)



/-! ## Claim C1 -/

/-- C1 counterexample: the claim's components may themselves contain the
provider-detection substring.  With username `supabase` (legal in the
username class `[^:@]`), the dialect is replaced by SUPABASE, not
POSTGRES, on an input of exactly the claimed shape
`postgresql://u:p@h:5432/d`. -/
theorem claim1_counterexample :
    extractDialectFromUri "postgresql://supabase:p@h:5432/d" = some .SUPABASE ∧
    extractDialectFromUri "postgresql://supabase:p@h:5432/d" ≠ some .POSTGRES := by
  constructor
  · decide
  · decide

/-- C1 (amended): for components drawn from the grammar's character
classes (host nonempty, unbracketed), provided the full input does not
case-insensitively contain `supabase` and the decoded password is not the
`[YOUR-PASSWORD]` placeholder, `postgresql://u:p@h:5432/d` classifies as
POSTGRES and extracts exactly the claimed record, with username, password
and database percent-decoded. -/
theorem claim1_theorem (u p h d : List Char)
    (hu : u.all isUserChar = true)
    (hp : p.all (fun c => c ≠ '@') = true)
    (hh : h.all isHostChar = true) (hhne : h ≠ []) (hhead : h.head? ≠ some '[')
    (hd : d.all isDbChar = true)
    (hsup : containsLower (builtUri "postgresql".data u p h "5432".data d none)
      "supabase".data = false)
    (hph : safeDecodeURIComponentL p ≠ placeholderPassword) :
    extractDialectFromUriL (builtUri "postgresql".data u p h "5432".data d none) =
      some .POSTGRES ∧
    extractCredentialsFromUriL (builtUri "postgresql".data u p h "5432".data d none) =
      some ⟨safeDecodeURIComponentL u, safeDecodeURIComponentL p, h, some 5432,
        safeDecodeURIComponentL d, true⟩ := by
  have hm := matchUriL_builtUri "postgresql".data u p h "5432".data d none
    (by decide) (by decide) hu hp hh hhne hhead (by decide) (by decide) hd (by decide)
  constructor
  · simp only [extractDialectFromUriL, hm]
    rw [if_pos (Or.inr (show toUpperL "postgresql".data = "POSTGRESQL".data from rfl))]
    rw [hsup]
    rfl
  · simp only [extractCredentialsFromUriL, hm]
    refine congrArg some ?_
    simp only [credOfGroups, Option.getD_some, Option.getD_none]
    have h1 : (if u = [] then [] else safeDecodeURIComponentL u) =
        safeDecodeURIComponentL u := by
      by_cases hx : u = [] <;> simp [hx, safeDecode_nil]
    have h2 : (if p = [] then [] else safeDecodeURIComponentL p) =
        safeDecodeURIComponentL p := by
      by_cases hx : p = [] <;> simp [hx, safeDecode_nil]
    have h3 : (if d = [] then [] else safeDecodeURIComponentL d) =
        safeDecodeURIComponentL d := by
      by_cases hx : d = [] <;> simp [hx, safeDecode_nil]
    simp only [h1, h2, if_neg hph]
    rw [paramsPart_nil]
    simp only [h3]
    rfl

/-- C1 witness: a concrete clean instance with percent-encoded
components. -/
theorem claim1_witness :
    (("user%31".data).all isUserChar = true) ∧
    extractDialectFromUriL
      (builtUri "postgresql".data "user%31".data "pa.ss".data "example.com".data
        "5432".data "mydb".data none) = some .POSTGRES ∧
    extractCredentialsFromUriL
      (builtUri "postgresql".data "user%31".data "pa.ss".data "example.com".data
        "5432".data "mydb".data none) =
      some ⟨safeDecodeURIComponentL "user%31".data, safeDecodeURIComponentL "pa.ss".data,
        "example.com".data, some 5432, safeDecodeURIComponentL "mydb".data, true⟩ :=
  ⟨by decide,
   claim1_theorem "user%31".data "pa.ss".data "example.com".data "mydb".data
     (by decide) (by decide) (by decide) (by decide) (by decide) (by decide)
     (by decide) (by decide)⟩



/-! ## Claim C10 -/

/-- C10: a bracketed host literal is returned with its surrounding square
brackets in the host field, for every well-formed
`postgres://u:p@[inner]:port/d`. -/
theorem claim10_theorem (u p inner port d : List Char)
    (hu : u.all isUserChar = true)
    (hp : p.all (fun c => c ≠ '@') = true)
    (hinne : inner ≠ []) (hin : inner.all (fun c => c ≠ ']') = true)
    (hport : port.all Char.isDigit = true) (hpne : port ≠ [])
    (hd : d.all isDbChar = true) :
    ∃ c, extractCredentialsFromUriL
        (builtUri "postgres".data u p ('[' :: (inner ++ [']'])) port d none) = some c ∧
      c.host = '[' :: (inner ++ [']']) := by
  have hm := matchUriL_builtUri_bracket "postgres".data u p inner port d
    (by decide) (by decide) hu hp hin hinne hport hpne hd
  exact ⟨credOfGroups ⟨"postgres".data, some u, some p, '[' :: (inner ++ [']']),
      some port, some d, none⟩,
    by simp [extractCredentialsFromUriL, hm], rfl⟩

/-- C10 witness: `postgres://u:p@[::1]:5432/db` keeps the brackets:
`host = "[::1]"`. -/
theorem claim10_witness :
    ∃ c, extractCredentialsFromUriL ("postgres://u:p@[::1]:5432/db".data) = some c ∧
      c.host = "[::1]".data :=
  claim10_theorem ['u'] ['p'] "::1".data "5432".data "db".data
    (by decide) (by decide) (by decide) (by decide) (by decide) (by decide) (by decide)



/-! ## Claim C9 -/

/-- C9 counterexample: `postgresql://u:p@supabase:5432/db?sslmode=require`
parses with no lossy substitution (password is not the placeholder and
the SSL mode is explicit), yet its dialect is SUPABASE, whose canonical
reconstruction has a dialect token outside the mapping table: re-parsing
it yields no dialect at all rather than the same dialect. -/
theorem claim9_counterexample :
    extractDialectFromUri "postgresql://u:p@supabase:5432/db?sslmode=require" =
      some .SUPABASE ∧
    extractCredentialsFromUri "postgresql://u:p@supabase:5432/db?sslmode=require" =
      some ⟨['u'], ['p'], "supabase".data, some 5432, "db".data, true⟩ ∧
    (⟨['u'], ['p'], "supabase".data, some 5432, "db".data, true⟩ :
      ParsedCredentials).password ≠ placeholderPassword ∧
    extractDialectFromUriL (canonicalReconstruction .SUPABASE
      ⟨['u'], ['p'], "supabase".data, some 5432, "db".data, true⟩) = none := by
  refine ⟨by decide, by decide, by decide, by decide⟩

/-- C9 (amended): re-parsing the canonical reconstruction of a parsed
result returns the same dialect and the same credential record, provided
additionally that the dialect is one of POSTGRES, MYSQL, CLICKHOUSE,
SQL_SERVER (the provider replacements SUPABASE and PLANETSCALE have no
reconstructible token), the port is present and below `2^53` (the range
on which the embedding's exact integer port is faithful to the
program's double-precision `parseInt` and positional decimal
rendering), the username, password and database fields are percent-free
members of their component character classes, the host is a `hostOk`
shape (a plain host-class run — even one starting with `[` — or a
bracketed literal, excluding only `[`-headed hosts where a `?` or `#`
follows the first `]`, on which the re-parse captures a shorter host),
and the reconstruction does not itself contain a provider-detection
substring. -/
theorem claim9_theorem (s : List Char) (dl : DatabaseDialect)
    (c : ParsedCredentials) (n : Nat)
    (hd : extractDialectFromUriL s = some dl)
    (hc : extractCredentialsFromUriL s = some c)
    (hdl : dl = .POSTGRES ∨ dl = .MYSQL ∨ dl = .CLICKHOUSE ∨ dl = .SQL_SERVER)
    (hport : c.port = some n) ( _hn : n < 2 ^ 53)
    (hu1 : c.username.all isUserChar = true)
    (hu2 : c.username.all (fun ch => ch ≠ '%') = true)
    (hp1 : c.password.all (fun ch => ch ≠ '@') = true)
    (hp2 : c.password.all (fun ch => ch ≠ '%') = true)
    (hh : hostOk c.host = true)
    (hdb : c.databaseName.all isDbChar = true)
    (hm1 : containsLower (canonicalReconstruction dl c) "supabase".data = false)
    (hm2 : containsLower (canonicalReconstruction dl c) "planetscale".data = false)
    (hm3 : containsLower (canonicalReconstruction dl c) "pscale".data = false)
    (hm4 : containsLower (canonicalReconstruction dl c) "psdb".data = false) :
    extractDialectFromUriL (canonicalReconstruction dl c) = some dl ∧
    extractCredentialsFromUriL (canonicalReconstruction dl c) = some c := by
  have hpl0 := extractCreds_password_ne_placeholder hc
  obtain ⟨cu, cp, chost, cpo, cdb, cssl⟩ := c
  have hpl : cp ≠ placeholderPassword := hpl0
  have hport2 : cpo = some n := hport
  subst hport2
  have hu1' : cu.all isUserChar = true := hu1
  have hu2' : cu.all (fun ch => ch ≠ '%') = true := hu2
  have hp1' : cp.all (fun ch => ch ≠ '@') = true := hp1
  have hp2' : cp.all (fun ch => ch ≠ '%') = true := hp2
  have hh' : hostOk chost = true := hh
  have hdb' : cdb.all isDbChar = true := hdb
  have hrecon : canonicalReconstruction dl ⟨cu, cp, chost, some n, cdb, cssl⟩ =
      builtUri (dialectName dl) cu cp chost (portDigits n) cdb
        (some (sslParams cssl)) := rfl
  have htall : (dialectName dl).all isDialectChar = true := by
    rcases hdl with h | h | h | h <;> subst h <;> decide
  have htne : dialectName dl ≠ [] := by
    rcases hdl with h | h | h | h <;> subst h <;> decide
  have hq : ((some (sslParams cssl)).getD []).all (fun ch => ch ≠ '#') = true := by
    rw [Option.getD_some]
    cases cssl
    · rw [show sslParams false = "sslmode=disable".data from rfl]
      decide
    · rw [show sslParams true = "sslmode=require".data from rfl]
      decide
  have hnorb : (portDigits n ++ '/' :: (cdb ++ paramsTail (some (sslParams cssl)))).all
      (fun ch => ch ≠ ']') = true := by
    rw [List.all_append, Bool.and_eq_true]
    constructor
    · rw [List.all_eq_true]
      intro x hx
      have hxd := List.all_eq_true.mp (portDigits_all_digit n) x hx
      simp only [decide_eq_true_eq]
      intro he
      rw [he] at hxd
      exact absurd hxd (by decide)
    · rw [List.all_cons, Bool.and_eq_true]
      refine ⟨by decide, ?_⟩
      rw [List.all_append, Bool.and_eq_true]
      constructor
      · rw [List.all_eq_true]
        intro x hx
        have hxd := List.all_eq_true.mp hdb' x hx
        simp only [decide_eq_true_eq]
        intro he
        rw [he] at hxd
        exact absurd hxd (by decide)
      · cases cssl
        · decide
        · decide
  have hm := matchUriL_builtUri_anyHost (dialectName dl) cu cp chost (portDigits n) cdb
    (some (sslParams cssl)) htall htne hu1' hp1' hh'
    (portDigits_all_digit n) (portDigits_ne_nil n) hdb' hq hnorb
  rw [hrecon] at hm1 hm2 hm3 hm4 ⊢
  constructor
  · simp only [extractDialectFromUriL, hm]
    rcases hdl with h | h | h | h <;> subst h <;>
      simp only [dialectName] at hm1 hm2 hm3 hm4 ⊢
    · rw [if_pos (Or.inl (show toUpperL "POSTGRES".data = "POSTGRES".data from rfl))]
      simp [hm1]
    · rw [if_neg (by decide),
        if_pos (show toUpperL "MYSQL".data = "MYSQL".data from rfl)]
      simp [hm2, hm3, hm4]
    · rw [if_neg (by decide), if_neg (by decide),
        if_pos (Or.inr (show toUpperL "CLICKHOUSE".data = "CLICKHOUSE".data from rfl))]
    · rw [if_neg (by decide), if_neg (by decide), if_neg (by decide),
        if_pos (Or.inr (Or.inr
          (show toUpperL "SQL_SERVER".data = "SQL_SERVER".data from rfl)))]
  · simp only [extractCredentialsFromUriL, hm]
    refine congrArg some ?_
    have hdbne : cdb.all (fun ch => ch ≠ '%') = true := by
      rw [List.all_eq_true] at hdb' ⊢
      intro x hx
      have hxd := hdb' x hx
      simp only [decide_eq_true_eq]
      intro heq
      rw [heq] at hxd
      exact absurd hxd (by decide)
    have hdecu : safeDecodeURIComponentL cu = cu := safeDecode_no_escape hu2'
    have hdecp : safeDecodeURIComponentL cp = cp := safeDecode_no_escape hp2'
    have hdecd : safeDecodeURIComponentL cdb = cdb := safeDecode_no_escape hdbne
    simp only [credOfGroups, Option.getD_some]
    have f1 : (if cu = [] then [] else safeDecodeURIComponentL cu) = cu := by
      by_cases hx : cu = [] <;> simp [hx, hdecu]
    have f2 : (if cp = [] then [] else safeDecodeURIComponentL cp) = cp := by
      by_cases hx : cp = [] <;> simp [hx, hdecp]
    rw [f1, f2, if_neg hpl, if_neg (portDigits_ne_nil n), digitsToNat_portDigits,
      paramsPart_sslParams]
    by_cases hx : cdb = [] <;> simp [hx, hdecd]

/-- C9 witness: a clean PostgreSQL URI round-trips through its canonical
reconstruction. -/
theorem claim9_witness :
    extractDialectFromUriL (canonicalReconstruction .POSTGRES
      ⟨"user".data, "pw".data, "db.example.com".data, some 5432, "app".data, true⟩) =
      some .POSTGRES ∧
    extractCredentialsFromUriL (canonicalReconstruction .POSTGRES
      ⟨"user".data, "pw".data, "db.example.com".data, some 5432, "app".data, true⟩) =
      some ⟨"user".data, "pw".data, "db.example.com".data, some 5432, "app".data, true⟩ :=
  claim9_theorem ("postgres://user:pw@db.example.com:5432/app?sslmode=require".data)
    .POSTGRES
    ⟨"user".data, "pw".data, "db.example.com".data, some 5432, "app".data, true⟩ 5432
    (by decide) (by decide) (Or.inl rfl) rfl (by decide) (by decide) (by decide)
    (by decide) (by decide) (by decide) (by decide) (by decide) (by decide)
    (by decide) (by decide)


end UriParser
